import Mathlib

/-!
Verification of the substring search engine (`search_engine.py`).

The engine expands every token of every non-blank input line into all of its
contiguous substrings, inserts them into a character trie whose terminal
payloads are sets of originating lines, flushes the in-memory trie to a shard
file at certain batch boundaries, and answers a query by descending every
shard's trie and taking the union of the terminal payloads found.

The shallow embedding below models lines, tokens and queries as `List Char`
and comes in two layers:

* a faithful model (`PyVal`, `insertE`, `search_trieE`, `parse_and_insertF`,
  `searchF`): the Python dict holds the `FINISH_MARKER` string `"_"` in the
  same key space as the single-character children, and its values are either
  sub-dicts or `set` objects.  Words containing `_` can therefore collide
  with terminal markers: `set.setdefault` and `dict.add` raise
  `AttributeError` during a build, and `set[...]` raises `TypeError` during
  a search.  These crashes are modelled with `Except`.

* an abstract model (`Trie`, `insertWord`, `search_trie`,
  `parse_and_insert`, `search`) that separates the terminal payload from
  the children map.  It agrees with the faithful model exactly on inputs
  free of the `_` character (the simulation `Sim` below makes this
  precise), and shard counting/naming is independent of trie contents, so
  batch-boundary facts proved on it transfer.
-/

namespace SearchEngine

/-- Characters stripped by Python 2's `str.strip()`:
space, tab, newline, carriage return, vertical tab, form feed. -/
def isPySpace (c : Char) : Bool :=
  (c.toNat == 32) || (c.toNat == 9) || (c.toNat == 10) ||
  (c.toNat == 13) || (c.toNat == 11) || (c.toNat == 12)

/-- Model of Python's `line.strip()`: drop whitespace from both ends. -/
def strip (l : List Char) : List Char :=
  ((l.dropWhile isPySpace).reverse.dropWhile isPySpace).reverse

/-- Model of Python's `line.split(' ')`: split on every single space,
keeping empty fields (`"a  b".split(' ') == ["a", "", "b"]`). -/
def splitOnSpace : List Char → List (List Char)
  | [] => [[]]
  | c :: rest =>
    if c = ' ' then [] :: splitOnSpace rest
    else
      match splitOnSpace rest with
      | t :: ts => (c :: t) :: ts
      | [] => [[c]]

/-- `generate_substrings` from the source: for `start` in `range(0, len)` and
`end` in `range(start, len)`, emit `strng[start:end+1]`. -/
def generate_substrings (strng : List Char) : List (List Char) :=
  (List.range strng.length).flatMap fun start =>
    (List.range (strng.length - start)).map fun k =>
      ((strng.drop start).take (k + 1))

/-- The abstract trie.  Character keys become the association list
`children`; the `FINISH_MARKER` key becomes a separate `terminal` field,
whose payload is a Python `set` of originating lines, modelled as a
duplicate-free list.  In the source `FINISH_MARKER = "_"` lives in the
same dict as the children, so this abstraction is accurate only when no
inserted word contains `_`; the faithful `PyVal` model below keeps the
collision. -/
inductive Trie where
  | node : List (Char × Trie) → Option (List (List Char)) → Trie

/-- The child map of a trie node. -/
def Trie.children : Trie → List (Char × Trie)
  | .node ch _ => ch

/-- The terminal payload of a trie node (the `FINISH_MARKER` entry). -/
def Trie.terminal : Trie → Option (List (List Char))
  | .node _ t => t

/-- A fresh empty Python dict `{}`. -/
def emptyTrie : Trie := .node [] none

/-- Key lookup in the child association list (Python `char in current` /
`current[char]`). -/
def lookupChild : List (Char × Trie) → Char → Option Trie
  | [], _ => none
  | (c', t') :: tl, c => if c' = c then some t' else lookupChild tl c

/-- In-place update of the child association list: Python's
`current.setdefault(char, {})` keeps an existing entry's position and
appends a missing key at the end (dict insertion order). -/
def updateAssoc : List (Char × Trie) → Char → Trie → List (Char × Trie)
  | [], c, t => [(c, t)]
  | (c', t') :: tl, c, t =>
    if c' = c then (c', t) :: tl else (c', t') :: updateAssoc tl c t

/-- Python `set.add`: append the element unless it is already present. -/
def addToSet (s : List (List Char)) (x : List Char) : List (List Char) :=
  if x ∈ s then s else s ++ [x]

/-- One insertion of `make_trie`'s inner loop: walk/create one child per
character of `word`; at the final node add the `FINISH_MARKER` payload and
insert `parent` into it. -/
def insertWord : List Char → List Char → Trie → Trie
  | [], parent, .node ch term => .node ch (some (addToSet (term.getD []) parent))
  | c :: rest, parent, .node ch term =>
    .node (updateAssoc ch c
      (insertWord rest parent ((lookupChild ch c).getD emptyTrie))) term

/-- `make_trie` from the source: throw all `words` into the trie, tagging the
terminal node of each with `parent` (the originating line). -/
def make_trie (words : List (List Char)) (parent : List Char) (file_db : Trie) : Trie :=
  words.foldl (fun acc w => insertWord w parent acc) file_db

/-- `search_trie` from the source: descend one child per query character;
on a missing child return `[]`; at the end return the `FINISH_MARKER`
payload if present, else `[]`. -/
def search_trie : List Char → Trie → List (List Char)
  | [], t => t.terminal.getD []
  | c :: rest, t =>
    match lookupChild t.children c with
    | some child => search_trie rest child
    | none => []

/-- State of the build loop in `parse_and_insert`: the token counter
`count`, the in-memory dict `temp_dict`, and the shards flushed so far
(`self.datastores`), each tagged with the numeric part of its file name. -/
structure BuildState where
  count : Nat
  temp : Trie
  shards : List (Nat × Trie)

/-- Processing of one token inside the `for strng in strings` loop:
insert all substrings of the token and increment `count`. -/
def tokStep (line : List Char) (st : BuildState) (strng : List Char) : BuildState :=
  { st with temp := make_trie (generate_substrings strng) line st.temp,
            count := st.count + 1 }

/-- Processing of one raw input line of `parse_and_insert`: strip it, skip
it when blank, otherwise flush the current dict to a shard named after
`count` whenever `count` is a nonzero multiple of 100, then insert every
token's substrings. -/
def stepLine (st : BuildState) (raw : List Char) : BuildState :=
  let line := strip raw
  if line = [] then st
  else
    let st1 :=
      if st.count ≠ 0 ∧ st.count % 100 = 0 then
        { count := st.count, temp := emptyTrie,
          shards := st.shards ++ [(st.count, st.temp)] }
      else st
    (splitOnSpace line).foldl (tokStep line) st1

/-- `parse_and_insert` from the source: fold the build loop over the input
lines, then unconditionally flush the remaining dict as a final shard named
after the final `count`. -/
def parse_and_insert (lines : List (List Char)) : List (Nat × Trie) :=
  let fin := lines.foldl stepLine { count := 0, temp := emptyTrie, shards := [] }
  fin.shards ++ [(fin.count, fin.temp)]

/-- `search` from the source: union (`result_set.update`) of
`search_trie` over every shard; the Python `set` is modelled as the
deduplicated list of all per-shard results. -/
def search (shards : List (Nat × Trie)) (q : List Char) : List (List Char) :=
  (shards.flatMap fun sh => search_trie q sh.2).dedup

/-- Convenience: character list of a string literal. -/
def strToChars (s : String) : List Char := s.data

/-! ### Basic lemmas about the set and association-list primitives -/

theorem mem_addToSet {s : List (List Char)} {p x : List Char} :
    x ∈ addToSet s p ↔ x ∈ s ∨ x = p := by
  unfold addToSet
  split
  · exact ⟨Or.inl, fun h => h.elim id (fun hx => hx ▸ ‹p ∈ s›)⟩
  · simp

theorem addToSet_of_mem {s : List (List Char)} {p : List Char} (h : p ∈ s) :
    addToSet s p = s := by
  simp [addToSet, h]

theorem lookupChild_updateAssoc (l : List (Char × Trie)) (c : Char) (t : Trie)
    (a : Char) :
    lookupChild (updateAssoc l c t) a = if a = c then some t else lookupChild l a := by
  induction l with
  | nil =>
    simp only [updateAssoc, lookupChild]
    by_cases h : a = c
    · rw [if_pos h.symm, if_pos h]
    · rw [if_neg (fun hh : c = a => h hh.symm), if_neg h]
  | cons hd tl ih =>
    obtain ⟨c', t'⟩ := hd
    by_cases h1 : c' = c
    · subst h1
      simp only [updateAssoc, if_pos rfl, lookupChild]
      by_cases h2 : c' = a
      · rw [if_pos h2, if_pos h2.symm]
      · rw [if_neg h2, if_neg (fun hh : a = c' => h2 hh.symm), if_neg h2]
    · simp only [updateAssoc, if_neg h1, lookupChild, ih]
      by_cases h2 : c' = a
      · rw [if_pos h2, if_neg (fun hh : a = c => h1 (h2.trans hh)), if_pos h2]
      · rw [if_neg h2, if_neg h2]

theorem updateAssoc_updateAssoc (l : List (Char × Trie)) (c : Char) (t u : Trie) :
    updateAssoc (updateAssoc l c t) c u = updateAssoc l c u := by
  induction l with
  | nil => simp [updateAssoc]
  | cons hd tl ih =>
    obtain ⟨c', t'⟩ := hd
    by_cases h : c' = c <;> simp [updateAssoc, h, ih]

theorem search_trie_emptyTrie (w : List Char) : search_trie w emptyTrie = [] := by
  cases w <;> rfl

theorem search_trie_nil (t : Trie) : search_trie [] t = t.terminal.getD [] := rfl

theorem search_trie_cons_of_some {ch : List (Char × Trie)} {c : Char} {child : Trie}
    (h : lookupChild ch c = some child) (rest : List Char)
    (term : Option (List (List Char))) :
    search_trie (c :: rest) (.node ch term) = search_trie rest child := by
  simp [search_trie, Trie.children, h]

theorem search_trie_cons_of_none {ch : List (Char × Trie)} {c : Char}
    (h : lookupChild ch c = none) (rest : List Char)
    (term : Option (List (List Char))) :
    search_trie (c :: rest) (.node ch term) = [] := by
  simp [search_trie, Trie.children, h]

/-- Core characterisation: membership in a search result after one insertion. -/
theorem mem_search_insertWord (w' : List Char) : ∀ (w p x : List Char) (t : Trie),
    x ∈ search_trie w (insertWord w' p t) ↔ (w = w' ∧ x = p) ∨ x ∈ search_trie w t := by
  induction w' with
  | nil =>
    intro w p x t
    obtain ⟨ch, term⟩ := t
    cases w with
    | nil =>
      simp only [insertWord, search_trie_nil, Trie.terminal, Option.getD_some,
        mem_addToSet]
      cases term <;> simp
      all_goals tauto
    | cons a wr =>
      have hch : (Trie.node ch (some (addToSet (term.getD []) p))).children = ch := rfl
      simp only [insertWord]
      constructor
      · intro hx
        refine Or.inr ?_
        cases h : lookupChild ch a with
        | some child =>
          rw [search_trie_cons_of_some h] at hx ⊢
          exact hx
        | none =>
          rw [search_trie_cons_of_none h] at hx
          exact absurd hx (List.not_mem_nil x)
      · rintro (⟨h, _⟩ | hx)
        · exact absurd h (List.cons_ne_nil a wr)
        · cases h : lookupChild ch a with
          | some child =>
            rw [search_trie_cons_of_some h] at hx ⊢
            exact hx
          | none =>
            rw [search_trie_cons_of_none h] at hx
            exact absurd hx (List.not_mem_nil x)
  | cons c r ih =>
    intro w p x t
    obtain ⟨ch, term⟩ := t
    cases w with
    | nil =>
      simp only [insertWord, search_trie_nil, Trie.terminal]
      constructor
      · exact Or.inr
      · rintro (⟨h, _⟩ | hx)
        · exact absurd h.symm (List.cons_ne_nil c r)
        · exact hx
    | cons a wr =>
      by_cases hac : a = c
      · subst hac
        have h1 : lookupChild
            (updateAssoc ch a (insertWord r p ((lookupChild ch a).getD emptyTrie))) a
            = some (insertWord r p ((lookupChild ch a).getD emptyTrie)) := by
          rw [lookupChild_updateAssoc, if_pos rfl]
        rw [show insertWord (a :: r) p (Trie.node ch term) =
          Trie.node (updateAssoc ch a
            (insertWord r p ((lookupChild ch a).getD emptyTrie))) term from rfl]
        rw [search_trie_cons_of_some h1, ih wr p x ((lookupChild ch a).getD emptyTrie)]
        cases h : lookupChild ch a with
        | some child =>
          rw [search_trie_cons_of_some h]
          simp [h]
        | none =>
          rw [search_trie_cons_of_none h]
          simp [h, search_trie_emptyTrie]
      · have h1 : lookupChild
            (updateAssoc ch c (insertWord r p ((lookupChild ch c).getD emptyTrie))) a
            = lookupChild ch a := by
          rw [lookupChild_updateAssoc, if_neg hac]
        rw [show insertWord (c :: r) p (Trie.node ch term) =
          Trie.node (updateAssoc ch c
            (insertWord r p ((lookupChild ch c).getD emptyTrie))) term from rfl]
        have hne : ¬(a :: wr = c :: r ∧ x = p) := by
          rintro ⟨h, _⟩
          exact hac (List.cons.injEq .. ▸ h).1
        cases h : lookupChild ch a with
        | some child =>
          rw [search_trie_cons_of_some (h1.trans h), search_trie_cons_of_some h]
          tauto
        | none =>
          rw [search_trie_cons_of_none (h1.trans h), search_trie_cons_of_none h]
          tauto

/-- One insertion step, as a fold over (substring, line) pairs. -/
def insPair (acc : Trie) (wp : List Char × List Char) : Trie :=
  insertWord wp.1 wp.2 acc

theorem mem_search_foldl_insPair (ps : List (List Char × List Char)) :
    ∀ (t : Trie) (q x : List Char),
      x ∈ search_trie q (ps.foldl insPair t) ↔ (q, x) ∈ ps ∨ x ∈ search_trie q t := by
  induction ps with
  | nil => intro t q x; simp
  | cons wp tl ih =>
    intro t q x
    rw [List.foldl_cons, ih, show insPair t wp = insertWord wp.1 wp.2 t from rfl,
      mem_search_insertWord]
    constructor
    · rintro (h | ⟨hq, hx⟩ | h)
      · exact Or.inl (List.mem_cons_of_mem _ h)
      · subst hq hx
        exact Or.inl (List.mem_cons_self _ _)
      · exact Or.inr h
    · rintro (h | h)
      · rcases List.mem_cons.mp h with h | h
        · rcases Prod.mk.injEq .. ▸ h with ⟨hq, hx⟩
          exact Or.inr (Or.inl ⟨hq, hx⟩)
        · exact Or.inl h
      · exact Or.inr (Or.inr h)

theorem make_trie_eq_foldl (words : List (List Char)) :
    ∀ (parent : List Char) (t : Trie),
      make_trie words parent t = (words.map (fun w => (w, parent))).foldl insPair t := by
  induction words with
  | nil => intro parent t; rfl
  | cons w tl ih =>
    intro parent t
    show make_trie tl parent (insertWord w parent t)
      = (tl.map (fun w => (w, parent))).foldl insPair (insPair t (w, parent))
    rw [ih]
    rfl

/-! ### The (substring, line) pairs inserted by the build -/

/-- All (substring, line) pairs inserted while processing the tokens `toks`
of the stripped line `line`. -/
def tokenInserts (toks : List (List Char)) (line : List Char) :
    List (List Char × List Char) :=
  toks.flatMap fun tok => (generate_substrings tok).map fun w => (w, line)

/-- All (substring, line) pairs inserted for one stripped non-blank line. -/
def lineInserts (line : List Char) : List (List Char × List Char) :=
  tokenInserts (splitOnSpace line) line

/-- All (substring, line) pairs inserted over the whole corpus, blank lines
contributing nothing. -/
def allInserts (lines : List (List Char)) : List (List Char × List Char) :=
  lines.flatMap fun raw =>
    if strip raw = [] then [] else lineInserts (strip raw)

theorem tokfold_shards (toks : List (List Char)) :
    ∀ (line : List Char) (st : BuildState),
      (toks.foldl (tokStep line) st).shards = st.shards := by
  induction toks with
  | nil => intro line st; rfl
  | cons tok tl ih => intro line st; rw [List.foldl_cons, ih]; rfl

theorem tokfold_count (toks : List (List Char)) :
    ∀ (line : List Char) (st : BuildState),
      (toks.foldl (tokStep line) st).count = st.count + toks.length := by
  induction toks with
  | nil => intro line st; rfl
  | cons tok tl ih =>
    intro line st
    rw [List.foldl_cons, ih]
    show st.count + 1 + tl.length = st.count + (tl.length + 1)
    omega

theorem tokfold_temp (toks : List (List Char)) :
    ∀ (line : List Char) (st : BuildState),
      (toks.foldl (tokStep line) st).temp
        = (tokenInserts toks line).foldl insPair st.temp := by
  induction toks with
  | nil => intro line st; rfl
  | cons tok tl ih =>
    intro line st
    rw [List.foldl_cons, ih]
    show (tokenInserts tl line).foldl insPair (make_trie (generate_substrings tok) line st.temp)
      = (tokenInserts (tok :: tl) line).foldl insPair st.temp
    rw [make_trie_eq_foldl]
    rw [show tokenInserts (tok :: tl) line
      = ((generate_substrings tok).map fun w => (w, line)) ++ tokenInserts tl line from rfl]
    rw [List.foldl_append]

/-- Main build characterisation: a line is found under query `q` in some
shard (or in the in-memory dict) after folding `stepLine` over `lines` iff
it was already there before, or some processed line inserted the pair
`(q, x)`. -/
theorem mem_build_foldl (lines : List (List Char)) :
    ∀ (st : BuildState) (q x : List Char),
      ((∃ sh ∈ (lines.foldl stepLine st).shards, x ∈ search_trie q sh.2)
          ∨ x ∈ search_trie q (lines.foldl stepLine st).temp)
        ↔ ((∃ sh ∈ st.shards, x ∈ search_trie q sh.2)
          ∨ x ∈ search_trie q st.temp ∨ (q, x) ∈ allInserts lines) := by
  induction lines with
  | nil => intro st q x; simp [allInserts]
  | cons raw rest ih =>
    intro st q x
    rw [List.foldl_cons, ih]
    have hall : allInserts (raw :: rest)
        = (if strip raw = [] then [] else lineInserts (strip raw)) ++ allInserts rest := rfl
    by_cases hb : strip raw = []
    · rw [show stepLine st raw = st from by simp [stepLine, hb]]
      rw [hall, if_pos hb]
      simp
    · rw [hall, if_neg hb, List.mem_append]
      rw [show lineInserts (strip raw)
        = tokenInserts (splitOnSpace (strip raw)) (strip raw) from rfl]
      by_cases hc : st.count ≠ 0 ∧ st.count % 100 = 0
      · have hstep : stepLine st raw
            = (splitOnSpace (strip raw)).foldl (tokStep (strip raw))
                ⟨st.count, emptyTrie, st.shards ++ [(st.count, st.temp)]⟩ := by
          obtain ⟨hc1, hc2⟩ := hc
          simp [stepLine, hb, hc1, hc2]
        rw [hstep, tokfold_shards, tokfold_temp, mem_search_foldl_insPair]
        rw [show (⟨st.count, emptyTrie, st.shards ++ [(st.count, st.temp)]⟩
          : BuildState).shards = st.shards ++ [(st.count, st.temp)] from rfl]
        rw [show (⟨st.count, emptyTrie, st.shards ++ [(st.count, st.temp)]⟩
          : BuildState).temp = emptyTrie from rfl]
        have hE : x ∉ search_trie q emptyTrie := by
          rw [search_trie_emptyTrie]
          exact List.not_mem_nil x
        have hA : (∃ sh ∈ st.shards ++ [(st.count, st.temp)], x ∈ search_trie q sh.2)
            ↔ (∃ sh ∈ st.shards, x ∈ search_trie q sh.2) ∨ x ∈ search_trie q st.temp := by
          constructor
          · rintro ⟨sh, hsh, hm⟩
            rcases List.mem_append.mp hsh with h | h
            · exact Or.inl ⟨sh, h, hm⟩
            · rw [List.mem_singleton.mp h] at hm
              exact Or.inr hm
          · rintro (⟨sh, h, hm⟩ | hm)
            · exact ⟨sh, List.mem_append.mpr (Or.inl h), hm⟩
            · exact ⟨(st.count, st.temp),
                List.mem_append.mpr (Or.inr (List.mem_singleton.mpr rfl)), hm⟩
        rw [hA]
        itauto
      · have hstep : stepLine st raw
            = (splitOnSpace (strip raw)).foldl (tokStep (strip raw)) st := by
          simp [stepLine, hb, hc]
        rw [hstep, tokfold_shards, tokfold_temp, mem_search_foldl_insPair]
        itauto

/-- Search over a completed build finds exactly the lines whose processing
inserted the query as a substring of one of their tokens. -/
theorem mem_search_parse_and_insert (corpus : List (List Char)) (q x : List Char) :
    x ∈ search (parse_and_insert corpus) q ↔ (q, x) ∈ allInserts corpus := by
  have hsearch : ∀ (shards : List (Nat × Trie)),
      x ∈ search shards q ↔ ∃ sh ∈ shards, x ∈ search_trie q sh.2 := by
    intro shards
    simp [search, List.mem_dedup, List.mem_flatMap]
  rw [hsearch]
  rw [show parse_and_insert corpus
    = (corpus.foldl stepLine ⟨0, emptyTrie, []⟩).shards
      ++ [((corpus.foldl stepLine ⟨0, emptyTrie, []⟩).count,
           (corpus.foldl stepLine ⟨0, emptyTrie, []⟩).temp)] from rfl]
  constructor
  · rintro ⟨sh, hsh, hmem⟩
    rcases List.mem_append.mp hsh with hsh | hsh
    · have := (mem_build_foldl corpus ⟨0, emptyTrie, []⟩ q x).mp (Or.inl ⟨sh, hsh, hmem⟩)
      rcases this with ⟨sh', hsh', _⟩ | hmem' | hp
      · exact absurd hsh' (List.not_mem_nil sh')
      · rw [search_trie_emptyTrie] at hmem'
        exact absurd hmem' (List.not_mem_nil x)
      · exact hp
    · rw [List.mem_singleton.mp hsh] at hmem
      have := (mem_build_foldl corpus ⟨0, emptyTrie, []⟩ q x).mp (Or.inr hmem)
      rcases this with ⟨sh', hsh', _⟩ | hmem' | hp
      · exact absurd hsh' (List.not_mem_nil sh')
      · rw [search_trie_emptyTrie] at hmem'
        exact absurd hmem' (List.not_mem_nil x)
      · exact hp
  · intro hp
    have := (mem_build_foldl corpus ⟨0, emptyTrie, []⟩ q x).mpr (Or.inr (Or.inr hp))
    rcases this with ⟨sh, hsh, hmem⟩ | hmem
    · exact ⟨sh, List.mem_append.mpr (Or.inl hsh), hmem⟩
    · exact ⟨_, List.mem_append.mpr (Or.inr (List.mem_singleton.mpr rfl)), hmem⟩

/-! ### The un-sharded reference build (spec side of the refinement claim) -/

/-- One line of the un-sharded build: same stripping, blank-line skipping,
tokenisation and insertion as `stepLine`, but into a single trie with no
flushing. -/
def singleStep (t : Trie) (raw : List Char) : Trie :=
  let line := strip raw
  if line = [] then t
  else (splitOnSpace line).foldl
    (fun acc tok => make_trie (generate_substrings tok) line acc) t

/-- A single trie built from the whole file in one batch, per the spec's
words: "a single trie built from the whole file". -/
def build_single (lines : List (List Char)) : Trie :=
  lines.foldl singleStep emptyTrie

theorem tokfold_trie (toks : List (List Char)) :
    ∀ (line : List Char) (t : Trie),
      toks.foldl (fun acc tok => make_trie (generate_substrings tok) line acc) t
        = (tokenInserts toks line).foldl insPair t := by
  induction toks with
  | nil => intro line t; rfl
  | cons tok tl ih =>
    intro line t
    rw [List.foldl_cons, ih, make_trie_eq_foldl]
    rw [show tokenInserts (tok :: tl) line
      = ((generate_substrings tok).map fun w => (w, line)) ++ tokenInserts tl line from rfl]
    rw [List.foldl_append]

theorem mem_search_build_single_foldl (lines : List (List Char)) :
    ∀ (t : Trie) (q x : List Char),
      x ∈ search_trie q (lines.foldl singleStep t)
        ↔ (q, x) ∈ allInserts lines ∨ x ∈ search_trie q t := by
  induction lines with
  | nil => intro t q x; simp [allInserts]
  | cons raw rest ih =>
    intro t q x
    rw [List.foldl_cons, ih]
    rw [show allInserts (raw :: rest)
      = (if strip raw = [] then [] else lineInserts (strip raw)) ++ allInserts rest from rfl,
      List.mem_append]
    by_cases hb : strip raw = []
    · rw [show singleStep t raw = t from by simp [singleStep, hb], if_pos hb]
      simp
    · rw [show singleStep t raw = (splitOnSpace (strip raw)).foldl
        (fun acc tok => make_trie (generate_substrings tok) (strip raw) acc) t from by
          simp [singleStep, hb], if_neg hb]
      rw [tokfold_trie, mem_search_foldl_insPair]
      rw [show lineInserts (strip raw)
        = tokenInserts (splitOnSpace (strip raw)) (strip raw) from rfl]
      itauto

theorem mem_search_build_single (corpus : List (List Char)) (q x : List Char) :
    x ∈ search_trie q (build_single corpus) ↔ (q, x) ∈ allInserts corpus := by
  rw [show build_single corpus = corpus.foldl singleStep emptyTrie from rfl,
    mem_search_build_single_foldl, search_trie_emptyTrie]
  simp

theorem mem_generate_substrings_of (t : List Char) (i k : Nat) (h : i + k < t.length) :
    (t.drop i).take (k + 1) ∈ generate_substrings t := by
  unfold generate_substrings
  rw [List.mem_flatMap]
  exact ⟨i, List.mem_range.mpr (by omega),
    List.mem_map.mpr ⟨k, List.mem_range.mpr (by omega), rfl⟩⟩

/-! ### Claim theorems -/

/-! ### In the abstract model, no terminal marker ever sits at a trie root -/

theorem insertWord_terminal_of_ne_nil {w : List Char} (hw : w ≠ [])
    (p : List Char) (t : Trie) : (insertWord w p t).terminal = t.terminal := by
  cases w with
  | nil => exact absurd rfl hw
  | cons c rest => obtain ⟨ch, term⟩ := t; rfl

theorem foldl_insPair_terminal (ps : List (List Char × List Char))
    (hps : ∀ wp ∈ ps, wp.1 ≠ []) :
    ∀ t : Trie, (ps.foldl insPair t).terminal = t.terminal := by
  induction ps with
  | nil => intro t; rfl
  | cons wp tl ih =>
    intro t
    rw [List.foldl_cons]
    rw [ih (fun x hx => hps x (List.mem_cons_of_mem _ hx))]
    exact insertWord_terminal_of_ne_nil (hps wp (List.mem_cons_self _ _)) wp.2 t

theorem ne_nil_of_mem_generate_substrings {w tok : List Char}
    (h : w ∈ generate_substrings tok) : w ≠ [] := by
  unfold generate_substrings at h
  rw [List.mem_flatMap] at h
  obtain ⟨s, hs, hw⟩ := h
  rw [List.mem_map] at hw
  obtain ⟨k, hk, rfl⟩ := hw
  rw [List.mem_range] at hs hk
  have hlen : ((tok.drop s).take (k + 1)).length = min (k + 1) (tok.length - s) := by
    rw [List.length_take, List.length_drop]
  have hpos : 0 < ((tok.drop s).take (k + 1)).length := by
    rw [hlen]; omega
  exact List.length_pos.mp hpos

theorem tokenInserts_fst_ne_nil {toks : List (List Char)} {line : List Char}
    {wp : List Char × List Char} (h : wp ∈ tokenInserts toks line) : wp.1 ≠ [] := by
  unfold tokenInserts at h
  rw [List.mem_flatMap] at h
  obtain ⟨tok, _, hw⟩ := h
  rw [List.mem_map] at hw
  obtain ⟨w, hwgs, rfl⟩ := hw
  exact ne_nil_of_mem_generate_substrings hwgs

theorem build_root_terminal_none (lines : List (List Char)) :
    ∀ st : BuildState, st.temp.terminal = none →
      (∀ sh ∈ st.shards, sh.2.terminal = none) →
      ((lines.foldl stepLine st).temp.terminal = none
        ∧ ∀ sh ∈ (lines.foldl stepLine st).shards, sh.2.terminal = none) := by
  induction lines with
  | nil => intro st h1 h2; exact ⟨h1, h2⟩
  | cons raw rest ih =>
    intro st h1 h2
    rw [List.foldl_cons]
    by_cases hb : strip raw = []
    · rw [show stepLine st raw = st from by simp [stepLine, hb]]
      exact ih st h1 h2
    · by_cases hc : st.count ≠ 0 ∧ st.count % 100 = 0
      · have hstep : stepLine st raw
            = (splitOnSpace (strip raw)).foldl (tokStep (strip raw))
                ⟨st.count, emptyTrie, st.shards ++ [(st.count, st.temp)]⟩ := by
          obtain ⟨hc1, hc2⟩ := hc
          simp [stepLine, hb, hc1, hc2]
        rw [hstep]
        refine ih _ ?_ ?_
        · rw [tokfold_temp,
            foldl_insPair_terminal _ (fun wp hwp => tokenInserts_fst_ne_nil hwp)]
          rfl
        · rw [tokfold_shards]
          intro sh hsh
          rcases List.mem_append.mp hsh with h | h
          · exact h2 sh h
          · rw [List.mem_singleton.mp h]
            exact h1
      · have hstep : stepLine st raw
            = (splitOnSpace (strip raw)).foldl (tokStep (strip raw)) st := by
          simp [stepLine, hb, hc]
        rw [hstep]
        refine ih _ ?_ ?_
        · rw [tokfold_temp,
            foldl_insPair_terminal _ (fun wp hwp => tokenInserts_fst_ne_nil hwp)]
          exact h1
        · rw [tokfold_shards]
          exact h2

/-- In the abstract model no shard root carries a terminal, so the abstract
search of the empty query is empty.  (Helper for the faithful development;
the real program behaves differently on corpora containing `_`.) -/
theorem search_empty_query_clean (corpus : List (List Char)) :
    ((parse_and_insert corpus).all fun sh => sh.2.terminal.isNone) = true
      ∧ search (parse_and_insert corpus) [] = [] := by
  have h := build_root_terminal_none corpus ⟨0, emptyTrie, []⟩ rfl
    (fun sh hsh => absurd hsh (List.not_mem_nil sh))
  have hnone : ∀ sh ∈ parse_and_insert corpus, sh.2.terminal = none := by
    intro sh hsh
    rcases List.mem_append.mp hsh with hm | hm
    · exact h.2 sh hm
    · rw [List.mem_singleton.mp hm]
      exact h.1
  constructor
  · rw [List.all_eq_true]
    intro sh hsh
    rw [Option.isNone_iff_eq_none]
    exact hnone sh hsh
  · rw [List.eq_nil_iff_forall_not_mem]
    intro x hx
    rw [show search (parse_and_insert corpus) []
      = ((parse_and_insert corpus).flatMap fun sh => search_trie [] sh.2).dedup
      from rfl, List.mem_dedup, List.mem_flatMap] at hx
    obtain ⟨sh, hsh, hmem⟩ := hx
    rw [search_trie_nil, hnone sh hsh] at hmem
    exact absurd hmem (List.not_mem_nil x)

/-! ### Shard names are cumulative token counts (C4) -/

/-- Number of `count` increments contributed by one raw input line: zero
for a blank line, otherwise the number of fields of `split(' ')`. -/
def lineTokens (raw : List Char) : Nat :=
  if strip raw = [] then 0 else (splitOnSpace (strip raw)).length

/-- Cumulative number of `count` increments over a list of raw lines. -/
def tokenCount (lines : List (List Char)) : Nat :=
  (lines.map lineTokens).sum

theorem splitOnSpace_ne_nil (l : List Char) : splitOnSpace l ≠ [] := by
  cases l with
  | nil => simp [splitOnSpace]
  | cons c rest =>
    unfold splitOnSpace
    by_cases h : c = ' '
    · simp [h]
    · rw [if_neg h]
      rcases hs : splitOnSpace rest with _ | ⟨t, ts⟩ <;> simp

theorem tokenCount_append (l1 l2 : List (List Char)) :
    tokenCount (l1 ++ l2) = tokenCount l1 + tokenCount l2 := by
  unfold tokenCount
  rw [List.map_append, List.sum_append]

theorem build_shard_names (lines : List (List Char)) :
    ∀ (st : BuildState) (processed : List (List Char)),
      st.count = tokenCount processed →
      (∀ n ∈ st.shards.map Prod.fst, n < st.count) →
      (∀ n ∈ st.shards.map Prod.fst,
        ∃ k, k ≤ processed.length ∧ n = tokenCount (processed.take k)) →
      List.Pairwise (· < ·) (st.shards.map Prod.fst) →
      ((lines.foldl stepLine st).count = tokenCount (processed ++ lines)
        ∧ (∀ n ∈ (lines.foldl stepLine st).shards.map Prod.fst,
            n < (lines.foldl stepLine st).count)
        ∧ (∀ n ∈ (lines.foldl stepLine st).shards.map Prod.fst,
            ∃ k, k ≤ (processed ++ lines).length
              ∧ n = tokenCount ((processed ++ lines).take k))
        ∧ List.Pairwise (· < ·) ((lines.foldl stepLine st).shards.map Prod.fst)) := by
  induction lines with
  | nil =>
    intro st processed h1 h2 h3 h4
    rw [List.append_nil]
    exact ⟨h1, h2, h3, h4⟩
  | cons raw rest ih =>
    intro st processed h1 h2 h3 h4
    rw [List.foldl_cons,
      show processed ++ raw :: rest = (processed ++ [raw]) ++ rest by simp]
    have htake : ∀ k, k ≤ processed.length
        → (processed ++ [raw]).take k = processed.take k := by
      intro k hk
      rw [List.take_append_of_le_length hk]
    by_cases hb : strip raw = []
    · rw [show stepLine st raw = st from by simp [stepLine, hb]]
      refine ih st (processed ++ [raw]) ?_ h2 ?_ h4
      · rw [tokenCount_append, h1,
          show tokenCount [raw] = 0 from by simp [tokenCount, lineTokens, hb]]
        omega
      · intro n hn
        obtain ⟨k, hk, hvk⟩ := h3 n hn
        exact ⟨k, by simp; omega, by rw [htake k hk]; exact hvk⟩
    · have htc : tokenCount (processed ++ [raw])
          = tokenCount processed + (splitOnSpace (strip raw)).length := by
        rw [tokenCount_append,
          show tokenCount [raw] = (splitOnSpace (strip raw)).length from by
            simp [tokenCount, lineTokens, hb]]
      have hlen : 0 < (splitOnSpace (strip raw)).length :=
        List.length_pos.mpr (splitOnSpace_ne_nil (strip raw))
      by_cases hc : st.count ≠ 0 ∧ st.count % 100 = 0
      · have hstep : stepLine st raw
            = (splitOnSpace (strip raw)).foldl (tokStep (strip raw))
                ⟨st.count, emptyTrie, st.shards ++ [(st.count, st.temp)]⟩ := by
          obtain ⟨hc1, hc2⟩ := hc
          simp [stepLine, hb, hc1, hc2]
        have hcnt : (⟨st.count, emptyTrie, st.shards ++ [(st.count, st.temp)]⟩
            : BuildState).count = st.count := rfl
        rw [hstep]
        refine ih _ (processed ++ [raw]) ?_ ?_ ?_ ?_
        · rw [tokfold_count, hcnt, htc, h1]
        · rw [tokfold_shards, tokfold_count, hcnt]
          intro n hn
          rw [show (⟨st.count, emptyTrie, st.shards ++ [(st.count, st.temp)]⟩
            : BuildState).shards = st.shards ++ [(st.count, st.temp)] from rfl,
            List.map_append] at hn
          rcases List.mem_append.mp hn with h | h
          · have := h2 n h
            omega
          · rw [show ([(st.count, st.temp)].map Prod.fst) = [st.count] from rfl] at h
            rw [List.mem_singleton.mp h]
            omega
        · rw [tokfold_shards]
          intro n hn
          rw [show (⟨st.count, emptyTrie, st.shards ++ [(st.count, st.temp)]⟩
            : BuildState).shards = st.shards ++ [(st.count, st.temp)] from rfl,
            List.map_append] at hn
          rcases List.mem_append.mp hn with h | h
          · obtain ⟨k, hk, hvk⟩ := h3 n h
            exact ⟨k, by simp; omega, by rw [htake k hk]; exact hvk⟩
          · rw [show ([(st.count, st.temp)].map Prod.fst) = [st.count] from rfl] at h
            rw [List.mem_singleton.mp h]
            refine ⟨processed.length, by simp, ?_⟩
            rw [htake processed.length (le_refl _), List.take_length]
            exact h1
        · rw [tokfold_shards]
          rw [show (⟨st.count, emptyTrie, st.shards ++ [(st.count, st.temp)]⟩
            : BuildState).shards = st.shards ++ [(st.count, st.temp)] from rfl,
            List.map_append]
          rw [List.pairwise_append]
          refine ⟨h4, List.pairwise_singleton _ _, ?_⟩
          intro a ha b hb'
          rw [show ([(st.count, st.temp)].map Prod.fst) = [st.count] from rfl] at hb'
          rw [List.mem_singleton.mp hb']
          exact h2 a ha
      · have hstep : stepLine st raw
            = (splitOnSpace (strip raw)).foldl (tokStep (strip raw)) st := by
          simp [stepLine, hb, hc]
        rw [hstep]
        refine ih _ (processed ++ [raw]) ?_ ?_ ?_ ?_
        · rw [tokfold_count, htc, h1]
        · rw [tokfold_shards, tokfold_count]
          intro n hn
          have := h2 n hn
          omega
        · rw [tokfold_shards]
          intro n hn
          obtain ⟨k, hk, hvk⟩ := h3 n hn
          exact ⟨k, by simp; omega, by rw [htake k hk]; exact hvk⟩
        · rw [tokfold_shards]
          exact h4

/-- C4 (corrected): every shard name produced by a build is the cumulative
count of tokens (`count` increments) processed through the end of its
batch — a token count of some prefix of the corpus — and the names are
strictly increasing, hence distinct. -/
theorem C4_shard_names_token_counts (corpus : List (List Char)) :
    List.Pairwise (· < ·) ((parse_and_insert corpus).map Prod.fst)
      ∧ ∀ n ∈ (parse_and_insert corpus).map Prod.fst,
          ∃ k, k ≤ corpus.length ∧ n = tokenCount (corpus.take k) := by
  have h := build_shard_names corpus ⟨0, emptyTrie, []⟩ []
    (by simp [tokenCount])
    (fun n hn => absurd hn (List.not_mem_nil n))
    (fun n hn => absurd hn (List.not_mem_nil n))
    List.Pairwise.nil
  rw [List.nil_append] at h
  obtain ⟨hcount, hlt, hpref, hpw⟩ := h
  have hshape : (parse_and_insert corpus).map Prod.fst
      = (corpus.foldl stepLine ⟨0, emptyTrie, []⟩).shards.map Prod.fst
        ++ [(corpus.foldl stepLine ⟨0, emptyTrie, []⟩).count] := by
    rw [show parse_and_insert corpus
      = (corpus.foldl stepLine ⟨0, emptyTrie, []⟩).shards
        ++ [((corpus.foldl stepLine ⟨0, emptyTrie, []⟩).count,
             (corpus.foldl stepLine ⟨0, emptyTrie, []⟩).temp)] from rfl,
      List.map_append]
    rfl
  constructor
  · rw [hshape, List.pairwise_append]
    refine ⟨hpw, List.pairwise_singleton _ _, ?_⟩
    intro a ha b hb
    rw [List.mem_singleton.mp hb]
    exact hlt a ha
  · rw [hshape]
    intro n hn
    rcases List.mem_append.mp hn with h | h
    · exact hpref n h
    · rw [List.mem_singleton.mp h]
      exact ⟨corpus.length, le_refl _, by rw [List.take_length]; exact hcount⟩

/-- Counterexample for C4 as stated: the corpus consisting of the single
line `"a b"` is one input line, yet its only shard is named `2` (the token
count), not `1` (the line count). -/
theorem C4_shard_names_cex :
    (parse_and_insert [strToChars "a b"]).map Prod.fst = [2]
      ∧ (parse_and_insert [strToChars "a b"]).map Prod.fst ≠ [1] := by
  constructor
  · decide
  · decide

/-- Witness for the corrected C4: the shard named `2` of the corpus
`["a b"]` is the token count of a prefix of the corpus. -/
theorem C4_shard_names_token_counts_witness :
    ∃ k, k ≤ ([strToChars "a b"] : List (List Char)).length
      ∧ 2 = tokenCount (([strToChars "a b"] : List (List Char)).take k) :=
  (C4_shard_names_token_counts [strToChars "a b"]).2 2 (by decide)

set_option maxRecDepth 100000 in
/-- Counterexample for C5 as stated: a corpus of exactly 100 non-blank
lines, each holding two tokens, produces two shard files, not one — the
batch counter advances per token, so the flush fires at the start of
line 51 when `count` reaches 100. -/
theorem C5_batch_boundary_cex :
    (parse_and_insert (List.replicate 100 (strToChars "a b"))).length = 2
      ∧ (parse_and_insert (List.replicate 100 (strToChars "a b"))).length ≠ 1 := by
  have h : (parse_and_insert (List.replicate 100 (strToChars "a b"))).length = 2 := by
    decide
  exact ⟨h, by omega⟩

set_option maxRecDepth 100000 in
/-- C5 (corrected): the batch boundary of 100 counts tokens, checked at
line starts, not input lines: 100 single-token lines give one shard and
101 give two, while 100 two-token lines already give two shards. -/
theorem C5_batch_boundary_tokens :
    (parse_and_insert (List.replicate 100 (strToChars "a"))).length = 1
      ∧ (parse_and_insert (List.replicate 101 (strToChars "a"))).length = 2
      ∧ (parse_and_insert (List.replicate 100 (strToChars "a b"))).length = 2 := by
  exact ⟨by decide, by decide, by decide⟩

/-- Counterexample for C6 as stated: building from an empty input file, or
from one whose only line is blank, still writes a shard file — the final
flush of `parse_and_insert` is unconditional. -/
theorem C6_empty_input_cex :
    (parse_and_insert []).length ≠ 0
      ∧ (parse_and_insert [strToChars "   "]).length ≠ 0 := by
  exact ⟨by decide, by decide⟩

/-- C6 (corrected): building from an empty input file (or one containing
only blank lines) writes exactly one shard file, named `0.db`, holding an
empty trie. -/
theorem C6_empty_input_one_empty_shard :
    parse_and_insert [] = [(0, emptyTrie)]
      ∧ parse_and_insert [strToChars "   "] = [(0, emptyTrie)] := by
  exact ⟨rfl, rfl⟩

/-! ### File-handle events of the search loop (C7) -/

/-- Explicit file-handle operations on shard files. -/
inductive FileEvent where
  | openShard : Nat → FileEvent
  | closeShard : Nat → FileEvent
  deriving DecidableEq

/-- The sequence of explicit shard-file-handle operations performed by
`search`: each loop iteration calls `shelve.open(i)` and reads the trie;
the loop body contains no `close()` call (unlike the build path, where
each flushed shard file is explicitly closed). -/
def searchEvents (shards : List (Nat × Trie)) (_q : List Char) : List FileEvent :=
  shards.foldl (fun tr sh => tr ++ [FileEvent.openShard sh.1]) []

theorem foldl_openEvents (shards : List (Nat × Trie)) :
    ∀ acc : List FileEvent,
      shards.foldl (fun tr sh => tr ++ [FileEvent.openShard sh.1]) acc
        = acc ++ shards.map fun sh => FileEvent.openShard sh.1 := by
  induction shards with
  | nil => intro acc; simp
  | cons sh tl ih =>
    intro acc
    rw [List.foldl_cons, ih, List.map_cons]
    simp

/-- Counterexample for C7 as stated: searching a one-shard build opens the
shard's handle but never issues a close for it before the search
completes. -/
theorem C7_handles_closed_cex :
    FileEvent.openShard 1
        ∈ searchEvents (parse_and_insert [strToChars "a"]) (strToChars "a")
      ∧ FileEvent.closeShard 1
        ∉ searchEvents (parse_and_insert [strToChars "a"]) (strToChars "a") := by
  exact ⟨by decide, by decide⟩

/-- C7 (corrected): during a search, exactly one handle is opened per shard
and no explicit close is ever issued; handle release is left to the
runtime. -/
theorem C7_search_opens_only (shards : List (Nat × Trie)) (q : List Char) :
    searchEvents shards q = shards.map fun sh => FileEvent.openShard sh.1 := by
  rw [show searchEvents shards q
    = shards.foldl (fun tr sh => tr ++ [FileEvent.openShard sh.1]) [] from rfl,
    foldl_openEvents, List.nil_append]

/-! ### Build-or-reuse decision of `manage_datastore` (C8) -/

/-- Model of `manage_datastore`: `existing` is the shard listing found by
`initialize_datastore` in the datastore directory; `force` deletes it;
when the resulting list is empty a build runs, whose `open(self.file)`
raises — modelled as `Except.error ()` — when the input file is missing or
unreadable (`input = none`).  Otherwise the existing shards are reused
untouched. -/
def manage_datastore (existing : List Nat) (force : Bool)
    (input : Option (List (List Char))) :
    Except Unit (List Nat ⊕ List (Nat × Trie)) :=
  let datastores := if force then [] else existing
  if datastores.isEmpty then
    match input with
    | none => Except.error ()
    | some corpus => Except.ok (Sum.inr (parse_and_insert corpus))
  else Except.ok (Sum.inl datastores)

/-- Counterexample for C8 as stated: with shards already present and
`forceRebuild = false`, `manage_datastore` completes normally even though
the input file is missing — the input file is never opened. -/
theorem C8_missing_input_cex :
    manage_datastore [100] false none = Except.ok (Sum.inl [100])
      ∧ manage_datastore [100] false none ≠ Except.error () := by
  exact ⟨rfl, fun h => Except.noConfusion h⟩

/-- C8 (corrected): a missing or unreadable input file is fatal exactly
when a build is attempted — when `forceRebuild` is set, or when no shard
file exists. -/
theorem C8_missing_input_fatal (existing : List Nat) (force : Bool)
    (h : force = true ∨ existing = []) :
    manage_datastore existing force none = Except.error () := by
  rcases h with h | h
  · subst h; rfl
  · subst h; cases force <;> rfl

/-- Witness for the corrected C8: a fresh directory (no shards) plus a
missing input file is fatal. -/
theorem C8_missing_input_fatal_witness :
    manage_datastore [] false none = Except.error () :=
  C8_missing_input_fatal [] false (Or.inr rfl)


/-! ### The faithful model: dicts with the FINISH_MARKER in the key space -/

/-- A Python value stored in the nested trie dictionaries: either a dict
mapping single-character string keys to further values, or a `set` of
originating lines.  `FINISH_MARKER = "_"` is an ordinary key. -/
inductive PyVal where
  | dict : List (Char × PyVal) → PyVal
  | pyset : List (List Char) → PyVal

/-- Key lookup in a dict's entry list. -/
def lookupP : List (Char × PyVal) → Char → Option PyVal
  | [], _ => none
  | (c', v') :: tl, c => if c' = c then some v' else lookupP tl c

/-- In-place value update: existing entries keep their position, a missing
key is appended at the end (Python dict insertion order). -/
def updateP : List (Char × PyVal) → Char → PyVal → List (Char × PyVal)
  | [], c, v => [(c, v)]
  | (c', v') :: tl, c, v =>
    if c' = c then (c', v) :: tl else (c', v') :: updateP tl c v

/-- One word insertion of `make_trie`, faithful to the source: walk the
characters via `current.setdefault(char, {})`, then
`current.setdefault(FINISH_MARKER, set()).add(parent)`.  `setdefault` on a
`set` and `.add` on a dict raise `AttributeError`, modelled as
`Except.error ()`. -/
def insertE : List Char → List Char → PyVal → Except Unit PyVal
  | [], parent, .dict e =>
    match lookupP e '_' with
    | none => .ok (.dict (updateP e '_' (.pyset (addToSet [] parent))))
    | some (.pyset s) => .ok (.dict (updateP e '_' (.pyset (addToSet s parent))))
    | some (.dict _) => .error ()
  | [], _, .pyset _ => .error ()
  | c :: rest, parent, .dict e =>
    match insertE rest parent ((lookupP e c).getD (.dict [])) with
    | .ok child => .ok (.dict (updateP e c child))
    | .error u => .error u
  | _ :: _, _, .pyset _ => .error ()

/-- `make_trie`, faithful: insert the words one by one; an uncaught
`AttributeError` aborts the whole call. -/
def make_trieE : List (List Char) → List Char → PyVal → Except Unit PyVal
  | [], _, v => .ok v
  | w :: ws, parent, v =>
    match insertE w parent v with
    | .ok v' => make_trieE ws parent v'
    | .error u => .error u

/-- The object returned by the real `search_trie`: the literal `[]`, a
FINISH `set` of lines, or a dict (when the FINISH_MARKER test matched a
`_` character child). -/
inductive PyRes where
  | asList : PyRes
  | asSet : List (List Char) → PyRes
  | asDict : List (Char × PyVal) → PyRes

/-- `search_trie`, faithful: descend `current[letter]`; a missing letter
returns `[]`; stepping a letter into a FINISH `set` tests membership of
the one-character string among the stored lines and raises `TypeError` on
`current[letter]` when it matches; at the end, `FINISH_MARKER in current`
matches a `_` key of either kind and returns its value, and on a `set` it
again raises `TypeError` when the line `"_"` is a member. -/
def search_trieE : List Char → PyVal → Except Unit PyRes
  | [], .dict e =>
    match lookupP e '_' with
    | some (.pyset s) => .ok (.asSet s)
    | some (.dict e2) => .ok (.asDict e2)
    | none => .ok .asList
  | [], .pyset s => if ['_'] ∈ s then .error () else .ok .asList
  | c :: rest, .dict e =>
    match lookupP e c with
    | some v => search_trieE rest v
    | none => .ok .asList
  | c :: _, .pyset s => if [c] ∈ s then .error () else .ok .asList

/-- What `result_set.update(r)` adds for a `search_trie` return value:
nothing for `[]`, the elements of a set, the keys of a dict. -/
def resContrib : PyRes → List (List Char)
  | .asList => []
  | .asSet s => s
  | .asDict e => e.map fun kv => [kv.1]

/-- The search loop over the shards, accumulating `result_set`; an
uncaught `TypeError` aborts the whole search. -/
def searchAccF : List (Nat × PyVal) → List Char → List (List Char) →
    Except Unit (List (List Char))
  | [], _, acc => .ok acc
  | sh :: rest, q, acc =>
    match search_trieE q sh.2 with
    | .ok r => searchAccF rest q (acc ++ resContrib r)
    | .error u => .error u

/-- `search`, faithful: union of the per-shard contributions, as a
deduplicated list, or a crash. -/
def searchF (shards : List (Nat × PyVal)) (q : List Char) :
    Except Unit (List (List Char)) :=
  match searchAccF shards q [] with
  | .ok acc => .ok acc.dedup
  | .error u => .error u

/-- Build-loop state of the faithful `parse_and_insert`. -/
structure BuildStateF where
  count : Nat
  temp : PyVal
  shards : List (Nat × PyVal)

/-- The `for strng in strings` loop, faithful: a crash in `make_trie`
aborts the build. -/
def tokFoldF : List Char → List (List Char) → BuildStateF →
    Except Unit BuildStateF
  | _, [], st => .ok st
  | line, strng :: toks, st =>
    match make_trieE (generate_substrings strng) line st.temp with
    | .ok v' => tokFoldF line toks ⟨st.count + 1, v', st.shards⟩
    | .error u => .error u

/-- One raw line of the faithful build: strip, skip blanks, flush at the
token-count boundary, then insert every token's substrings. -/
def stepLineF (st : BuildStateF) (raw : List Char) : Except Unit BuildStateF :=
  let line := strip raw
  if line = [] then .ok st
  else
    let st1 := if st.count ≠ 0 ∧ st.count % 100 = 0 then
        (⟨st.count, .dict [], st.shards ++ [(st.count, st.temp)]⟩ : BuildStateF)
      else st
    tokFoldF line (splitOnSpace line) st1

/-- The line loop of the faithful build. -/
def lineFoldF : List (List Char) → BuildStateF → Except Unit BuildStateF
  | [], st => .ok st
  | raw :: rest, st =>
    match stepLineF st raw with
    | .ok st' => lineFoldF rest st'
    | .error u => .error u

/-- `parse_and_insert`, faithful: the build either crashes on an uncaught
`AttributeError` or completes and yields the flushed shards plus the
unconditional final flush. -/
def parse_and_insertF (lines : List (List Char)) :
    Except Unit (List (Nat × PyVal)) :=
  match lineFoldF lines ⟨0, .dict [], []⟩ with
  | .ok fin => .ok (fin.shards ++ [(fin.count, fin.temp)])
  | .error u => .error u

/-- Token loop of the faithful un-sharded reference build. -/
def tokTrieFoldF : List Char → List (List Char) → PyVal → Except Unit PyVal
  | _, [], v => .ok v
  | line, t :: ts, v =>
    match make_trieE (generate_substrings t) line v with
    | .ok v' => tokTrieFoldF line ts v'
    | .error u => .error u

/-- Line loop of the faithful un-sharded reference build. -/
def singleFoldF : List (List Char) → PyVal → Except Unit PyVal
  | [], v => .ok v
  | raw :: rest, v =>
    match (if strip raw = [] then Except.ok v
           else tokTrieFoldF (strip raw) (splitOnSpace (strip raw)) v) with
    | .ok v' => singleFoldF rest v'
    | .error u => .error u

/-- A single trie built from the whole file in one batch, on the faithful
model. -/
def build_singleF (lines : List (List Char)) : Except Unit PyVal :=
  singleFoldF lines (.dict [])

/-- The value reached from `v` by following the character path `path`
through dict keys; a path may end at a FINISH `set`. -/
def descendD : List Char → PyVal → Option PyVal
  | [], v => some v
  | c :: rest, .dict e =>
    match lookupP e c with
    | some v => descendD rest v
    | none => none
  | _ :: _, .pyset _ => none


/-! ### Basic lemmas for the faithful model -/

theorem lookupP_updateP (l : List (Char × PyVal)) (c : Char) (v : PyVal)
    (a : Char) :
    lookupP (updateP l c v) a = if a = c then some v else lookupP l a := by
  induction l with
  | nil =>
    simp only [updateP, lookupP]
    by_cases h : a = c
    · rw [if_pos h.symm, if_pos h]
    · rw [if_neg (fun hh : c = a => h hh.symm), if_neg h]
  | cons hd tl ih =>
    obtain ⟨c', v'⟩ := hd
    by_cases h1 : c' = c
    · subst h1
      simp only [updateP, if_pos rfl, lookupP]
      by_cases h2 : c' = a
      · rw [if_pos h2, if_pos h2.symm]
      · rw [if_neg h2, if_neg (fun hh : a = c' => h2 hh.symm), if_neg h2]
    · simp only [updateP, if_neg h1, lookupP, ih]
      by_cases h2 : c' = a
      · rw [if_pos h2, if_neg (fun hh : a = c => h1 (h2.trans hh)), if_pos h2]
      · rw [if_neg h2, if_neg h2]

theorem updateP_self {l : List (Char × PyVal)} {c : Char} {v : PyVal}
    (h : lookupP l c = some v) : updateP l c v = l := by
  induction l with
  | nil => exact absurd h (by simp [lookupP])
  | cons hd tl ih =>
    obtain ⟨c', v'⟩ := hd
    by_cases h1 : c' = c
    · rw [lookupP, if_pos h1] at h
      injection h with h
      subst h
      rw [updateP, if_pos h1]
    · rw [lookupP, if_neg h1] at h
      rw [updateP, if_neg h1, ih h]

theorem mem_updateP {l : List (Char × PyVal)} {c k : Char} {v x : PyVal}
    (h : (c, v) ∈ updateP l k x) : (c, v) ∈ l ∨ (c = k ∧ v = x) := by
  induction l with
  | nil =>
    rw [updateP] at h
    rcases List.mem_singleton.mp h with h
    exact Or.inr ⟨(Prod.mk.injEq .. ▸ h).1, (Prod.mk.injEq .. ▸ h).2⟩
  | cons hd tl ih =>
    obtain ⟨c', v'⟩ := hd
    by_cases h1 : c' = k
    · rw [updateP, if_pos h1] at h
      rcases List.mem_cons.mp h with h | h
      · exact Or.inr ⟨h1 ▸ (Prod.mk.injEq .. ▸ h).1, (Prod.mk.injEq .. ▸ h).2⟩
      · exact Or.inl (List.mem_cons_of_mem _ h)
    · rw [updateP, if_neg h1] at h
      rcases List.mem_cons.mp h with h | h
      · exact Or.inl (List.mem_cons.mpr (Or.inl h))
      · rcases ih h with h | h
        · exact Or.inl (List.mem_cons_of_mem _ h)
        · exact Or.inr h

theorem lookupP_mem {l : List (Char × PyVal)} {c : Char} {v : PyVal}
    (h : lookupP l c = some v) : (c, v) ∈ l := by
  induction l with
  | nil => exact absurd h (by simp [lookupP])
  | cons hd tl ih =>
    obtain ⟨c', v'⟩ := hd
    by_cases h1 : c' = c
    · rw [lookupP, if_pos h1] at h
      injection h with h
      exact h1 ▸ h ▸ List.mem_cons_self _ _
    · rw [lookupP, if_neg h1] at h
      exact List.mem_cons_of_mem _ (ih h)

theorem insertE_pyset (w p : List Char) (s : List (List Char)) :
    insertE w p (.pyset s) = .error () := by
  cases w <;> rfl

theorem insertE_nil_none {e : List (Char × PyVal)} (h : lookupP e '_' = none)
    (p : List Char) :
    insertE [] p (.dict e) = .ok (.dict (updateP e '_' (.pyset (addToSet [] p)))) := by
  simp [insertE, h]

theorem insertE_nil_pyset {e : List (Char × PyVal)} {s : List (List Char)}
    (h : lookupP e '_' = some (.pyset s)) (p : List Char) :
    insertE [] p (.dict e) = .ok (.dict (updateP e '_' (.pyset (addToSet s p)))) := by
  simp [insertE, h]

theorem insertE_nil_dict {e d : List (Char × PyVal)}
    (h : lookupP e '_' = some (.dict d)) (p : List Char) :
    insertE [] p (.dict e) = .error () := by
  simp [insertE, h]

theorem insertE_cons_ok {e : List (Char × PyVal)} {c : Char} {rest p : List Char}
    {child : PyVal}
    (h : insertE rest p ((lookupP e c).getD (.dict [])) = .ok child) :
    insertE (c :: rest) p (.dict e) = .ok (.dict (updateP e c child)) := by
  simp [insertE, h]

theorem insertE_cons_error {e : List (Char × PyVal)} {c : Char}
    {rest p : List Char} {u : Unit}
    (h : insertE rest p ((lookupP e c).getD (.dict [])) = .error u) :
    insertE (c :: rest) p (.dict e) = .error u := by
  simp [insertE, h]

theorem insertE_ok_dict {w p : List Char} {v v' : PyVal}
    (h : insertE w p v = .ok v') :
    (∃ e, v = PyVal.dict e) ∧ ∃ e', v' = PyVal.dict e' := by
  cases v with
  | pyset s => exact absurd (insertE_pyset w p s ▸ h) (by simp)
  | dict e =>
    refine ⟨⟨e, rfl⟩, ?_⟩
    cases w with
    | nil =>
      cases h2 : lookupP e '_' with
      | none =>
        rw [insertE_nil_none h2] at h
        injection h with h
        exact ⟨_, h.symm⟩
      | some v0 =>
        cases v0 with
        | pyset s =>
          rw [insertE_nil_pyset h2] at h
          injection h with h
          exact ⟨_, h.symm⟩
        | dict d =>
          rw [insertE_nil_dict h2] at h
          exact absurd h (by simp)
    | cons c rest =>
      cases h2 : insertE rest p ((lookupP e c).getD (.dict [])) with
      | ok child =>
        rw [insertE_cons_ok h2] at h
        injection h with h
        exact ⟨_, h.symm⟩
      | error u =>
        rw [insertE_cons_error h2] at h
        exact absurd h (by simp)

theorem searchE_nil_set {e : List (Char × PyVal)} {s : List (List Char)}
    (h : lookupP e '_' = some (.pyset s)) :
    search_trieE [] (.dict e) = .ok (.asSet s) := by
  simp [search_trieE, h]

theorem searchE_nil_dict {e e2 : List (Char × PyVal)}
    (h : lookupP e '_' = some (.dict e2)) :
    search_trieE [] (.dict e) = .ok (.asDict e2) := by
  simp [search_trieE, h]

theorem searchE_nil_none {e : List (Char × PyVal)} (h : lookupP e '_' = none) :
    search_trieE [] (.dict e) = .ok .asList := by
  simp [search_trieE, h]

theorem searchE_cons_some {e : List (Char × PyVal)} {c : Char} {v : PyVal}
    (h : lookupP e c = some v) (rest : List Char) :
    search_trieE (c :: rest) (.dict e) = search_trieE rest v := by
  simp [search_trieE, h]

theorem searchE_cons_none {e : List (Char × PyVal)} {c : Char}
    (h : lookupP e c = none) (rest : List Char) :
    search_trieE (c :: rest) (.dict e) = .ok .asList := by
  simp [search_trieE, h]

theorem descendD_cons_some {e : List (Char × PyVal)} {c : Char} {v : PyVal}
    (h : lookupP e c = some v) (rest : List Char) :
    descendD (c :: rest) (.dict e) = descendD rest v := by
  simp [descendD, h]

theorem descendD_cons_none {e : List (Char × PyVal)} {c : Char}
    (h : lookupP e c = none) (rest : List Char) :
    descendD (c :: rest) (.dict e) = none := by
  simp [descendD, h]


/-! ### Descend-level properties of faithful insertion -/

/-- A successful insertion leaves a FINISH set containing the parent line
at the end of the inserted word's path. -/
theorem insertE_ok_descend (w : List Char) : ∀ (p : List Char) (v v' : PyVal),
    insertE w p v = .ok v' →
    ∃ e s, descendD w v' = some (PyVal.dict e)
      ∧ lookupP e '_' = some (PyVal.pyset s) ∧ p ∈ s := by
  induction w with
  | nil =>
    intro p v v' h
    cases v with
    | pyset s => rw [insertE_pyset] at h; exact absurd h (by simp)
    | dict e =>
      cases h2 : lookupP e '_' with
      | none =>
        rw [insertE_nil_none h2] at h
        injection h with h
        subst h
        refine ⟨updateP e '_' (.pyset (addToSet [] p)), addToSet [] p, rfl, ?_, ?_⟩
        · rw [lookupP_updateP, if_pos rfl]
        · exact mem_addToSet.mpr (Or.inr rfl)
      | some v0 =>
        cases v0 with
        | pyset s0 =>
          rw [insertE_nil_pyset h2] at h
          injection h with h
          subst h
          refine ⟨updateP e '_' (.pyset (addToSet s0 p)), addToSet s0 p, rfl, ?_, ?_⟩
          · rw [lookupP_updateP, if_pos rfl]
          · exact mem_addToSet.mpr (Or.inr rfl)
        | dict d =>
          rw [insertE_nil_dict h2] at h
          exact absurd h (by simp)
  | cons c rest ih =>
    intro p v v' h
    cases v with
    | pyset s => rw [insertE_pyset] at h; exact absurd h (by simp)
    | dict e =>
      cases h2 : insertE rest p ((lookupP e c).getD (.dict [])) with
      | error u => rw [insertE_cons_error h2] at h; exact absurd h (by simp)
      | ok child =>
        rw [insertE_cons_ok h2] at h
        injection h with h
        subst h
        obtain ⟨e1, s1, hdd, hl, hp⟩ := ih p _ _ h2
        refine ⟨e1, s1, ?_, hl, hp⟩
        rw [descendD_cons_some (show lookupP (updateP e c child) c = some child
          from by rw [lookupP_updateP, if_pos rfl])]
        exact hdd

/-- Inserting a word that extends an already-FINISHed word by the
character `_` walks into the FINISH set and crashes
(`set.setdefault` raises `AttributeError`). -/
theorem insertE_append_underscore_error (w : List Char) :
    ∀ (v : PyVal) (e : List (Char × PyVal)) (s : List (List Char)) (p : List Char),
    descendD w v = some (PyVal.dict e) → lookupP e '_' = some (PyVal.pyset s) →
    insertE (w ++ ['_']) p v = .error () := by
  induction w with
  | nil =>
    intro v e s p hd hl
    rw [show descendD [] v = some v from rfl] at hd
    injection hd with hd
    subst hd
    rw [List.nil_append]
    exact insertE_cons_error (u := ()) (by rw [hl, Option.getD_some, insertE_pyset])
  | cons c w' ih =>
    intro v e s p hd hl
    cases v with
    | pyset s0 => rw [show descendD (c :: w') (PyVal.pyset s0) = none from rfl] at hd
                  exact absurd hd (by simp)
    | dict e0 =>
      cases h3 : lookupP e0 c with
      | none => rw [descendD_cons_none h3] at hd; exact absurd hd (by simp)
      | some v0 =>
        rw [descendD_cons_some h3] at hd
        rw [List.cons_append]
        exact insertE_cons_error (u := ())
          (by rw [h3, Option.getD_some]; exact ih v0 e s p hd hl)

/-- Shape-and-payload preservation for one node: a FINISH set stays a
FINISH set and only grows; a dict stays a dict and its FINISH payload only
grows. -/
def MonoConcl (n n' : PyVal) : Prop :=
  (∀ s, n = PyVal.pyset s → ∃ s', n' = PyVal.pyset s' ∧ ∀ l ∈ s, l ∈ s')
  ∧ (∀ e, n = PyVal.dict e → ∃ e', n' = PyVal.dict e'
      ∧ ∀ s, lookupP e '_' = some (PyVal.pyset s) →
          ∃ s', lookupP e' '_' = some (PyVal.pyset s') ∧ ∀ l ∈ s, l ∈ s')

theorem MonoConcl_refl (n : PyVal) : MonoConcl n n :=
  ⟨fun s h => ⟨s, h, fun _ hl => hl⟩,
   fun e h => ⟨e, h, fun s hs => ⟨s, hs, fun _ hl => hl⟩⟩⟩

theorem MonoConcl_trans {n1 n2 n3 : PyVal}
    (a : MonoConcl n1 n2) (b : MonoConcl n2 n3) : MonoConcl n1 n3 := by
  constructor
  · intro s h
    obtain ⟨s2, h2, sub2⟩ := a.1 s h
    obtain ⟨s3, h3, sub3⟩ := b.1 s2 h2
    exact ⟨s3, h3, fun l hl => sub3 l (sub2 l hl)⟩
  · intro e h
    obtain ⟨e2, h2, pay2⟩ := a.2 e h
    obtain ⟨e3, h3, pay3⟩ := b.2 e2 h2
    refine ⟨e3, h3, fun s hs => ?_⟩
    obtain ⟨s2, hs2, sub2⟩ := pay2 s hs
    obtain ⟨s3, hs3, sub3⟩ := pay3 s2 hs2
    exact ⟨s3, hs3, fun l hl => sub3 l (sub2 l hl)⟩

/-- A successful insertion preserves every existing path: the reached
value keeps its shape and its FINISH payloads only grow. -/
theorem insertE_descend_mono (w : List Char) : ∀ (p : List Char) (v v' : PyVal),
    insertE w p v = .ok v' → ∀ (path : List Char) (n : PyVal),
    descendD path v = some n →
    ∃ n', descendD path v' = some n' ∧ MonoConcl n n' := by
  induction w with
  | nil =>
    intro p v v' h path n hd
    cases v with
    | pyset s => rw [insertE_pyset] at h; exact absurd h (by simp)
    | dict e =>
      cases h2 : lookupP e '_' with
      | none =>
        rw [insertE_nil_none h2] at h
        injection h with h
        subst h
        cases path with
        | nil =>
          rw [show descendD [] (PyVal.dict e) = some (PyVal.dict e) from rfl] at hd
          injection hd with hd
          subst hd
          refine ⟨_, rfl, fun s hcon => absurd hcon (by simp), fun e0 he0 => ?_⟩
          injection he0 with he0
          subst he0
          refine ⟨updateP e '_' (.pyset (addToSet [] p)), rfl, fun s hs => ?_⟩
          rw [h2] at hs
          exact absurd hs (by simp)
        | cons c ps =>
          by_cases hc : c = '_'
          · subst hc
            rw [descendD_cons_none h2] at hd
            exact absurd hd (by simp)
          · cases h3 : lookupP e c with
            | none => rw [descendD_cons_none h3] at hd; exact absurd hd (by simp)
            | some v0 =>
              rw [descendD_cons_some h3] at hd
              refine ⟨n, ?_, MonoConcl_refl n⟩
              rw [descendD_cons_some (show lookupP (updateP e '_'
                (.pyset (addToSet [] p))) c = some v0 from by
                  rw [lookupP_updateP, if_neg hc]; exact h3)]
              exact hd
      | some v0 =>
        cases v0 with
        | dict d =>
          rw [insertE_nil_dict h2] at h
          exact absurd h (by simp)
        | pyset s0 =>
          rw [insertE_nil_pyset h2] at h
          injection h with h
          subst h
          cases path with
          | nil =>
            rw [show descendD [] (PyVal.dict e) = some (PyVal.dict e) from rfl] at hd
            injection hd with hd
            subst hd
            refine ⟨_, rfl, fun s hcon => absurd hcon (by simp), fun e0 he0 => ?_⟩
            injection he0 with he0
            subst he0
            refine ⟨updateP e '_' (.pyset (addToSet s0 p)), rfl, fun s hs => ?_⟩
            rw [h2] at hs
            injection hs with hs
            injection hs with hs
            refine ⟨addToSet s0 p, by rw [lookupP_updateP, if_pos rfl], fun l hl => ?_⟩
            exact mem_addToSet.mpr (Or.inl (hs ▸ hl))
          | cons c ps =>
            by_cases hc : c = '_'
            · subst hc
              rw [descendD_cons_some h2] at hd
              cases ps with
              | nil =>
                rw [show descendD [] (PyVal.pyset s0) = some (PyVal.pyset s0)
                  from rfl] at hd
                injection hd with hd
                subst hd
                refine ⟨PyVal.pyset (addToSet s0 p), ?_, ?_, ?_⟩
                · rw [descendD_cons_some (show lookupP (updateP e '_'
                    (.pyset (addToSet s0 p))) '_' = some (.pyset (addToSet s0 p))
                    from by rw [lookupP_updateP, if_pos rfl])]
                  rfl
                · intro s hps
                  injection hps with hps
                  subst hps
                  exact ⟨addToSet s0 p, rfl, fun l hl => mem_addToSet.mpr (Or.inl hl)⟩
                · intro e0 hcon
                  exact absurd hcon (by simp)
              | cons c2 ps2 =>
                rw [show descendD (c2 :: ps2) (PyVal.pyset s0) = none from rfl] at hd
                exact absurd hd (by simp)
            · cases h3 : lookupP e c with
              | none => rw [descendD_cons_none h3] at hd; exact absurd hd (by simp)
              | some v1 =>
                rw [descendD_cons_some h3] at hd
                refine ⟨n, ?_, MonoConcl_refl n⟩
                rw [descendD_cons_some (show lookupP (updateP e '_'
                  (.pyset (addToSet s0 p))) c = some v1 from by
                    rw [lookupP_updateP, if_neg hc]; exact h3)]
                exact hd
  | cons a rest ih =>
    intro p v v' h path n hd
    cases v with
    | pyset s => rw [insertE_pyset] at h; exact absurd h (by simp)
    | dict e =>
      cases h2 : insertE rest p ((lookupP e a).getD (.dict [])) with
      | error u => rw [insertE_cons_error h2] at h; exact absurd h (by simp)
      | ok child =>
        rw [insertE_cons_ok h2] at h
        injection h with h
        subst h
        cases path with
        | nil =>
          rw [show descendD [] (PyVal.dict e) = some (PyVal.dict e) from rfl] at hd
          injection hd with hd
          subst hd
          refine ⟨_, rfl, fun s hcon => absurd hcon (by simp), fun e0 he0 => ?_⟩
          injection he0 with he0
          subst he0
          by_cases ha : a = '_'
          · subst ha
            refine ⟨updateP e '_' child, rfl, fun s hs => ?_⟩
            rw [hs, Option.getD_some, insertE_pyset] at h2
            exact absurd h2 (by simp)
          · refine ⟨updateP e a child, rfl, fun s hs => ?_⟩
            refine ⟨s, ?_, fun l hl => hl⟩
            rw [lookupP_updateP, if_neg (fun hh : '_' = a => ha hh.symm)]
            exact hs
        | cons c ps =>
          by_cases hc : c = a
          · subst hc
            cases h3 : lookupP e c with
            | none => rw [descendD_cons_none h3] at hd; exact absurd hd (by simp)
            | some v0 =>
              rw [descendD_cons_some h3] at hd
              rw [h3, Option.getD_some] at h2
              obtain ⟨n', hd', hm⟩ := ih p v0 child h2 ps n hd
              refine ⟨n', ?_, hm⟩
              rw [descendD_cons_some (show lookupP (updateP e c child) c
                = some child from by rw [lookupP_updateP, if_pos rfl])]
              exact hd'
          · cases h3 : lookupP e c with
            | none => rw [descendD_cons_none h3] at hd; exact absurd hd (by simp)
            | some v0 =>
              rw [descendD_cons_some h3] at hd
              refine ⟨n, ?_, MonoConcl_refl n⟩
              rw [descendD_cons_some (show lookupP (updateP e a child) c
                = some v0 from by rw [lookupP_updateP, if_neg hc]; exact h3)]
              exact hd


/-! ### make_trieE composition and the crash on misplaced FINISH_MARKER -/

theorem make_trieE_cons_ok {w p : List Char} {v v' : PyVal}
    (h : insertE w p v = .ok v') (ws : List (List Char)) :
    make_trieE (w :: ws) p v = make_trieE ws p v' := by
  simp [make_trieE, h]

theorem make_trieE_cons_error {w p : List Char} {v : PyVal} {u : Unit}
    (h : insertE w p v = .error u) (ws : List (List Char)) :
    make_trieE (w :: ws) p v = .error u := by
  simp [make_trieE, h]

theorem make_trieE_append_ok {A : List (List Char)} {p : List Char} {v v1 : PyVal}
    (h : make_trieE A p v = .ok v1) (B : List (List Char)) :
    make_trieE (A ++ B) p v = make_trieE B p v1 := by
  induction A generalizing v with
  | nil =>
    injection h with h
    subst h
    rfl
  | cons w ws ih =>
    rw [List.cons_append]
    cases h2 : insertE w p v with
    | ok v2 =>
      rw [make_trieE_cons_ok h2] at h ⊢
      exact ih h
    | error u =>
      rw [make_trieE_cons_error h2] at h
      exact absurd h (by simp)

theorem make_trieE_append_error {A : List (List Char)} {p : List Char} {v : PyVal}
    {u : Unit} (h : make_trieE A p v = .error u) (B : List (List Char)) :
    make_trieE (A ++ B) p v = .error u := by
  induction A generalizing v with
  | nil => exact absurd h (by simp [make_trieE])
  | cons w ws ih =>
    rw [List.cons_append]
    cases h2 : insertE w p v with
    | ok v2 =>
      rw [make_trieE_cons_ok h2] at h ⊢
      exact ih h
    | error u' =>
      rw [make_trieE_cons_error h2] at h
      obtain ⟨⟩ := u'
      obtain ⟨⟩ := u
      rw [make_trieE_cons_error h2]

/-- A word list holding a word directly followed by that word extended by
`_` always crashes `make_trie`: the first of the pair (if reached) installs
a FINISH set at its node, and the second walks into that set. -/
theorem make_trieE_error_at_pair (A B : List (List Char)) (w1 : List Char)
    (p : List Char) (v : PyVal) :
    make_trieE (A ++ w1 :: (w1 ++ ['_']) :: B) p v = .error () := by
  cases hA : make_trieE A p v with
  | error u =>
    obtain ⟨⟩ := u
    exact make_trieE_append_error hA _
  | ok v1 =>
    rw [make_trieE_append_ok hA]
    cases h1 : insertE w1 p v1 with
    | error u =>
      obtain ⟨⟩ := u
      exact make_trieE_cons_error h1 _
    | ok v2 =>
      rw [make_trieE_cons_ok h1]
      obtain ⟨e, st, hd, hl, _⟩ := insertE_ok_descend w1 p v1 v2 h1
      exact make_trieE_cons_error (insertE_append_underscore_error w1 v2 e st p hd hl) _

theorem generate_substrings_decomp (tok : List Char) (h : tok ≠ []) :
    ∃ rest, generate_substrings tok
      = ((List.range tok.length).map fun k => tok.take (k + 1)) ++ rest := by
  obtain ⟨n, hn⟩ : ∃ n, tok.length = n + 1 :=
    ⟨tok.length - 1, by have := List.length_pos.mpr h; omega⟩
  refine ⟨(List.map Nat.succ (List.range n)).flatMap fun start =>
    (List.range (tok.length - start)).map fun k =>
      (tok.drop start).take (k + 1), ?_⟩
  unfold generate_substrings
  rw [hn, List.range_succ_eq_map, List.flatMap_cons]
  congr 1
  simp only [Nat.sub_zero, List.drop_zero]
  rw [List.range_succ_eq_map]

theorem exists_double_split {α : Type} (l : List α) (i : Nat)
    (h : i + 1 < l.length) :
    ∃ A B, l = A ++ l.get ⟨i, by omega⟩ :: l.get ⟨i + 1, h⟩ :: B := by
  refine ⟨l.take i, l.drop (i + 2), ?_⟩
  have h1 : l.drop i = l.get ⟨i, by omega⟩ :: l.drop (i + 1) := by
    rw [List.drop_eq_getElem_cons (show i < l.length by omega)]
    simp [List.get_eq_getElem]
  have h2 : l.drop (i + 1) = l.get ⟨i + 1, h⟩ :: l.drop (i + 2) := by
    rw [List.drop_eq_getElem_cons h]
    simp [List.get_eq_getElem]
  conv_lhs => rw [← List.take_append_drop i l, h1, h2]

/-- A token with `_` anywhere past its first character crashes the
insertion of its substrings: the prefix ending right before that `_` is
inserted immediately before the prefix ending at it. -/
theorem make_trieE_error_of_underscore (tok : List Char) (p : List Char)
    (v : PyVal) (h : '_' ∈ tok.drop 1) :
    make_trieE (generate_substrings tok) p v = .error () := by
  obtain ⟨j, hj, hje⟩ := List.mem_iff_getElem.mp h
  rw [List.getElem_drop] at hje
  have hjlen : 1 + j < tok.length := by
    rw [List.length_drop] at hj
    omega
  have htoknil : tok ≠ [] := by
    intro hnil
    rw [hnil] at hjlen
    simp at hjlen
  obtain ⟨rest, hgs⟩ := generate_substrings_decomp tok htoknil
  have hPL : ((List.range tok.length).map fun k => tok.take (k + 1)).length
      = tok.length := by simp
  have hsplit := exists_double_split
    ((List.range tok.length).map fun k => tok.take (k + 1)) j
    (by rw [hPL]; omega)
  obtain ⟨A, B, hAB⟩ := hsplit
  have hget1 : ((List.range tok.length).map fun k => tok.take (k + 1)).get
      ⟨j, by rw [hPL]; omega⟩ = tok.take (j + 1) := by
    simp [List.get_eq_getElem, List.getElem_map, List.getElem_range]
  have hget2 : ((List.range tok.length).map fun k => tok.take (k + 1)).get
      ⟨j + 1, by rw [hPL]; omega⟩ = tok.take (j + 2) := by
    simp [List.get_eq_getElem, List.getElem_map, List.getElem_range]
  have htake : tok.take (j + 2) = tok.take (j + 1) ++ ['_'] := by
    rw [show j + 2 = (j + 1) + 1 from rfl, List.take_succ]
    congr 1
    rw [List.getElem?_eq_getElem (show j + 1 < tok.length by omega)]
    rw [show tok[j + 1] = tok[1 + j] from by congr 1; omega, hje]
    rfl
  rw [hgs, hAB, hget1, hget2, htake, List.append_assoc, List.cons_append,
    List.cons_append]
  exact make_trieE_error_at_pair A (B ++ rest) (tok.take (j + 1)) p v

/-- Contrapositive: if the substring insertion of a token succeeded, the
token has `_` at most as its first character. -/
theorem no_underscore_of_make_trieE_ok {tok p : List Char} {v v' : PyVal}
    (h : make_trieE (generate_substrings tok) p v = .ok v') :
    '_' ∉ tok.drop 1 := by
  intro hmem
  rw [make_trieE_error_of_underscore tok p v hmem] at h
  exact absurd h (by simp)


/-! ### Well-formedness: FINISH sets only ever sit under the FINISH key -/

/-- Every `set` value in the structure is stored at the key `_`. -/
inductive PyWF : PyVal → Prop where
  | set : ∀ s, PyWF (.pyset s)
  | dict : ∀ e, (∀ c v, (c, v) ∈ e → (∃ s, v = PyVal.pyset s) → c = '_') →
      (∀ c v, (c, v) ∈ e → PyWF v) → PyWF (.dict e)

theorem pywf_dict_inv {e : List (Char × PyVal)} (hwf : PyWF (.dict e)) :
    ∀ c v, (c, v) ∈ e → ((∃ s, v = PyVal.pyset s) → c = '_') ∧ PyWF v := by
  cases hwf with
  | dict e hkey hsub => exact fun c v hm => ⟨hkey c v hm, hsub c v hm⟩

theorem insertE_PyWF (w : List Char) : ∀ (p : List Char) (v v' : PyVal),
    insertE w p v = .ok v' → PyWF v → PyWF v' := by
  induction w with
  | nil =>
    intro p v v' h hwf
    cases v with
    | pyset s => rw [insertE_pyset] at h; exact absurd h (by simp)
    | dict e =>
      have hinv := pywf_dict_inv hwf
      cases h2 : lookupP e '_' with
      | none =>
        rw [insertE_nil_none h2] at h
        injection h with h
        subst h
        refine PyWF.dict _ (fun c v hm => ?_) (fun c v hm => ?_)
        · rcases mem_updateP hm with hm | ⟨rfl, rfl⟩
          · exact fun hx => (hinv c v hm).1 hx
          · exact fun _ => rfl
        · rcases mem_updateP hm with hm | ⟨rfl, rfl⟩
          · exact (hinv c v hm).2
          · exact PyWF.set _
      | some v0 =>
        cases v0 with
        | dict d => rw [insertE_nil_dict h2] at h; exact absurd h (by simp)
        | pyset s0 =>
          rw [insertE_nil_pyset h2] at h
          injection h with h
          subst h
          refine PyWF.dict _ (fun c v hm => ?_) (fun c v hm => ?_)
          · rcases mem_updateP hm with hm | ⟨rfl, rfl⟩
            · exact fun hx => (hinv c v hm).1 hx
            · exact fun _ => rfl
          · rcases mem_updateP hm with hm | ⟨rfl, rfl⟩
            · exact (hinv c v hm).2
            · exact PyWF.set _
  | cons c rest ih =>
    intro p v v' h hwf
    cases v with
    | pyset s => rw [insertE_pyset] at h; exact absurd h (by simp)
    | dict e =>
      have hinv := pywf_dict_inv hwf
      cases h2 : insertE rest p ((lookupP e c).getD (.dict [])) with
      | error u => rw [insertE_cons_error h2] at h; exact absurd h (by simp)
      | ok child =>
        rw [insertE_cons_ok h2] at h
        injection h with h
        subst h
        have hchild_wf : PyWF ((lookupP e c).getD (.dict [])) := by
          cases h3 : lookupP e c with
          | none =>
            exact PyWF.dict [] (fun c v hm => absurd hm (List.not_mem_nil _))
              (fun c v hm => absurd hm (List.not_mem_nil _))
          | some v0 =>
            exact (hinv c v0 (lookupP_mem h3)).2
        have hchild2x : PyWF child := ih p _ child h2 hchild_wf
        obtain ⟨_, ed, hed⟩ := insertE_ok_dict h2
        refine PyWF.dict _ (fun c0 v0 hm => ?_) (fun c0 v0 hm => ?_)
        · rcases mem_updateP hm with hm | ⟨rfl, rfl⟩
          · exact fun hx => (hinv c0 v0 hm).1 hx
          · intro hcon
            obtain ⟨s0, hs0⟩ := hcon
            rw [hed] at hs0
            exact absurd hs0 (by simp)
        · rcases mem_updateP hm with hm | ⟨rfl, rfl⟩
          · exact (hinv c0 v0 hm).2
          · exact hchild2x

/-- A shard (or the in-memory dict): well-formed, a dict at the top, and
no FINISH set directly at the root (only nonempty words are inserted). -/
def Shardy (v : PyVal) : Prop :=
  PyWF v ∧ ∃ e, v = PyVal.dict e ∧ ∀ s, lookupP e '_' ≠ some (PyVal.pyset s)

theorem shardy_empty : Shardy (.dict []) :=
  ⟨PyWF.dict [] (fun c v hm => absurd hm (List.not_mem_nil _))
     (fun c v hm => absurd hm (List.not_mem_nil _)),
   [], rfl, fun s h => by
     rw [show lookupP [] '_' = none from rfl] at h
     exact absurd h (by simp)⟩

theorem insertE_Shardy {w p : List Char} {v v' : PyVal} (hw : w ≠ [])
    (h : insertE w p v = .ok v') (hsh : Shardy v) : Shardy v' := by
  obtain ⟨hwf, e, rfl, hroot⟩ := hsh
  refine ⟨insertE_PyWF w p _ v' h hwf, ?_⟩
  cases w with
  | nil => exact absurd rfl hw
  | cons c rest =>
    cases h2 : insertE rest p ((lookupP e c).getD (.dict [])) with
    | error u => rw [insertE_cons_error h2] at h; exact absurd h (by simp)
    | ok child =>
      rw [insertE_cons_ok h2] at h
      injection h with h
      subst h
      obtain ⟨_, ed, hed⟩ := insertE_ok_dict h2
      refine ⟨updateP e c child, rfl, fun s hs => ?_⟩
      by_cases hc : '_' = c
      · rw [lookupP_updateP, if_pos hc] at hs
        injection hs with hs
        rw [hed] at hs
        exact absurd hs (by simp)
      · rw [lookupP_updateP, if_neg hc] at hs
        exact hroot s hs

theorem make_trieE_Shardy {ws : List (List Char)} {p : List Char} {v v' : PyVal}
    (hws : ∀ w ∈ ws, w ≠ []) (h : make_trieE ws p v = .ok v')
    (hsh : Shardy v) : Shardy v' := by
  induction ws generalizing v with
  | nil => injection h with h; exact h ▸ hsh
  | cons w tl ih =>
    cases h2 : insertE w p v with
    | error u => rw [make_trieE_cons_error h2] at h; exact absurd h (by simp)
    | ok v1 =>
      rw [make_trieE_cons_ok h2] at h
      exact ih (fun x hx => hws x (List.mem_cons_of_mem _ hx)) h
        (insertE_Shardy (hws w (List.mem_cons_self _ _)) h2 hsh)

/-! ### Crash-freedom of search on disciplined queries -/

theorem searchE_nil_ok (e : List (Char × PyVal)) :
    ∃ r, search_trieE [] (.dict e) = .ok r := by
  cases h : lookupP e '_' with
  | none => exact ⟨.asList, searchE_nil_none h⟩
  | some v0 =>
    cases v0 with
    | pyset s => exact ⟨.asSet s, searchE_nil_set h⟩
    | dict e2 => exact ⟨.asDict e2, searchE_nil_dict h⟩

theorem search_ok_of_wf (q : List Char) : ∀ (e : List (Char × PyVal)),
    PyWF (.dict e) → '_' ∉ q → ∃ r, search_trieE q (.dict e) = .ok r := by
  induction q with
  | nil => intro e _ _; exact searchE_nil_ok e
  | cons c rest ih =>
    intro e hwf hq
    have hc : c ≠ '_' := fun hcc => hq (hcc ▸ List.mem_cons_self c rest)
    cases h3 : lookupP e c with
    | none => exact ⟨.asList, searchE_cons_none h3 rest⟩
    | some v0 =>
      have hv0 := pywf_dict_inv hwf c v0 (lookupP_mem h3)
      cases v0 with
      | pyset s => exact absurd (hv0.1 ⟨s, rfl⟩) hc
      | dict e2 =>
        obtain ⟨r, hr⟩ := ih e2 hv0.2 (fun hm => hq (List.mem_cons_of_mem _ hm))
        exact ⟨r, by rw [searchE_cons_some h3 rest]; exact hr⟩

theorem search_ok_of_shardy {q : List Char} {v : PyVal} (hsh : Shardy v)
    (hq : '_' ∉ q.drop 1) : ∃ r, search_trieE q v = .ok r := by
  obtain ⟨hwf, e, rfl, hroot⟩ := hsh
  cases q with
  | nil => exact searchE_nil_ok e
  | cons c rest =>
    rw [show (c :: rest).drop 1 = rest from rfl] at hq
    cases h3 : lookupP e c with
    | none => exact ⟨.asList, searchE_cons_none h3 rest⟩
    | some v0 =>
      have hv0 := pywf_dict_inv hwf c v0 (lookupP_mem h3)
      cases v0 with
      | pyset s0 =>
        by_cases hc : c = '_'
        · subst hc
          exact absurd h3 (hroot s0)
        · exact absurd (hv0.1 ⟨s0, rfl⟩) hc
      | dict e2 =>
        obtain ⟨r, hr⟩ := search_ok_of_wf rest e2 hv0.2 hq
        exact ⟨r, by rw [searchE_cons_some h3 rest]; exact hr⟩

/-- The search result at the end of a path whose node carries a FINISH
set is exactly that set. -/
theorem searchE_of_descend (q : List Char) : ∀ (v : PyVal)
    (e : List (Char × PyVal)) (s : List (List Char)),
    descendD q v = some (.dict e) → lookupP e '_' = some (.pyset s) →
    search_trieE q v = .ok (.asSet s) := by
  induction q with
  | nil =>
    intro v e s hd hl
    rw [show descendD [] v = some v from rfl] at hd
    injection hd with hd
    subst hd
    exact searchE_nil_set hl
  | cons c rest ih =>
    intro v e s hd hl
    cases v with
    | pyset s0 =>
      rw [show descendD (c :: rest) (PyVal.pyset s0) = none from rfl] at hd
      exact absurd hd (by simp)
    | dict e0 =>
      cases h3 : lookupP e0 c with
      | none => rw [descendD_cons_none h3] at hd; exact absurd hd (by simp)
      | some v0 =>
        rw [descendD_cons_some h3] at hd
        rw [searchE_cons_some h3 rest]
        exact ih v0 e s hd hl


/-! ### Retrievability through the faithful build -/

/-- The node at path `q` carries a FINISH set containing `x`. -/
def HasSet (v : PyVal) (q x : List Char) : Prop :=
  ∃ e s, descendD q v = some (PyVal.dict e)
    ∧ lookupP e '_' = some (PyVal.pyset s) ∧ x ∈ s

theorem insertE_HasSet_mono {w p : List Char} {v v' : PyVal} {q x : List Char}
    (h : insertE w p v = .ok v') (hh : HasSet v q x) : HasSet v' q x := by
  obtain ⟨e, st, hd, hl, hx⟩ := hh
  obtain ⟨n', hd', hm⟩ := insertE_descend_mono w p v v' h q _ hd
  obtain ⟨e', he', hpay⟩ := hm.2 e rfl
  obtain ⟨s', hl', hsub⟩ := hpay st hl
  exact ⟨e', s', he' ▸ hd', hl', hsub x hx⟩

theorem make_trieE_HasSet_mono {ws : List (List Char)} {p : List Char}
    {v v' : PyVal} {q x : List Char}
    (h : make_trieE ws p v = .ok v') (hh : HasSet v q x) : HasSet v' q x := by
  induction ws generalizing v with
  | nil => injection h with h; exact h ▸ hh
  | cons w tl ih =>
    cases h2 : insertE w p v with
    | error u => rw [make_trieE_cons_error h2] at h; exact absurd h (by simp)
    | ok v1 =>
      rw [make_trieE_cons_ok h2] at h
      exact ih h (insertE_HasSet_mono h2 hh)

theorem make_trieE_HasSet_of_mem {ws : List (List Char)} {p : List Char}
    {v v' : PyVal} {q : List Char}
    (h : make_trieE ws p v = .ok v') (hq : q ∈ ws) : HasSet v' q p := by
  obtain ⟨A, B, rfl⟩ := List.append_of_mem hq
  cases hA : make_trieE A p v with
  | error u => rw [make_trieE_append_error hA] at h; exact absurd h (by simp)
  | ok v1 =>
    rw [make_trieE_append_ok hA] at h
    cases h2 : insertE q p v1 with
    | error u => rw [make_trieE_cons_error h2] at h; exact absurd h (by simp)
    | ok v2 =>
      rw [make_trieE_cons_ok h2] at h
      obtain ⟨e, st, hd, hl, hp⟩ := insertE_ok_descend q p v1 v2 h2
      exact make_trieE_HasSet_mono h ⟨e, st, hd, hl, hp⟩

theorem tokFoldF_cons_ok {line strng : List Char} {st : BuildStateF} {v' : PyVal}
    (h : make_trieE (generate_substrings strng) line st.temp = .ok v')
    (toks : List (List Char)) :
    tokFoldF line (strng :: toks) st
      = tokFoldF line toks ⟨st.count + 1, v', st.shards⟩ := by
  simp [tokFoldF, h]

theorem tokFoldF_cons_error {line strng : List Char} {st : BuildStateF} {u : Unit}
    (h : make_trieE (generate_substrings strng) line st.temp = .error u)
    (toks : List (List Char)) :
    tokFoldF line (strng :: toks) st = .error u := by
  simp [tokFoldF, h]

theorem tokFoldF_shards {line : List Char} (toks : List (List Char)) :
    ∀ {st st' : BuildStateF}, tokFoldF line toks st = .ok st' →
      st'.shards = st.shards := by
  induction toks with
  | nil =>
    intro st st' h
    injection h with h
    rw [← h]
  | cons t ts ih =>
    intro st st' h
    cases h2 : make_trieE (generate_substrings t) line st.temp with
    | error u => rw [tokFoldF_cons_error h2] at h; exact absurd h (by simp)
    | ok v1 =>
      rw [tokFoldF_cons_ok h2] at h
      have h3 := ih h
      exact h3

theorem tokFoldF_temp_mono {line : List Char} {toks : List (List Char)}
    {st st' : BuildStateF} {q x : List Char}
    (h : tokFoldF line toks st = .ok st') (hh : HasSet st.temp q x) :
    HasSet st'.temp q x := by
  induction toks generalizing st with
  | nil => injection h with h; exact h ▸ hh
  | cons t ts ih =>
    cases h2 : make_trieE (generate_substrings t) line st.temp with
    | error u => rw [tokFoldF_cons_error h2] at h; exact absurd h (by simp)
    | ok v1 =>
      rw [tokFoldF_cons_ok h2] at h
      exact ih h (make_trieE_HasSet_mono h2 hh)

theorem tokFoldF_intro {line : List Char} {toks : List (List Char)}
    {st st' : BuildStateF} {tok q : List Char}
    (h : tokFoldF line toks st = .ok st') (htok : tok ∈ toks)
    (hq : q ∈ generate_substrings tok) : HasSet st'.temp q line := by
  induction toks generalizing st with
  | nil => exact absurd htok (List.not_mem_nil tok)
  | cons t ts ih =>
    cases h2 : make_trieE (generate_substrings t) line st.temp with
    | error u => rw [tokFoldF_cons_error h2] at h; exact absurd h (by simp)
    | ok v1 =>
      rw [tokFoldF_cons_ok h2] at h
      rcases List.mem_cons.mp htok with rfl | htok
      · exact tokFoldF_temp_mono h (make_trieE_HasSet_of_mem h2 hq)
      · exact ih h htok

theorem stepLineF_blank {st : BuildStateF} {raw : List Char}
    (h : strip raw = []) : stepLineF st raw = .ok st := by
  simp [stepLineF, h]

theorem stepLineF_flush {st : BuildStateF} {raw : List Char}
    (h : strip raw ≠ []) (h1 : st.count ≠ 0) (h2 : st.count % 100 = 0) :
    stepLineF st raw = tokFoldF (strip raw) (splitOnSpace (strip raw))
      ⟨st.count, .dict [], st.shards ++ [(st.count, st.temp)]⟩ := by
  simp [stepLineF, h, h1, h2]

theorem stepLineF_noflush {st : BuildStateF} {raw : List Char}
    (h : strip raw ≠ []) (hc : ¬(st.count ≠ 0 ∧ st.count % 100 = 0)) :
    stepLineF st raw
      = tokFoldF (strip raw) (splitOnSpace (strip raw)) st := by
  simp [stepLineF, h, hc]

theorem lineFoldF_cons_ok {st st1 : BuildStateF} {raw : List Char}
    (h : stepLineF st raw = .ok st1) (rest : List (List Char)) :
    lineFoldF (raw :: rest) st = lineFoldF rest st1 := by
  simp [lineFoldF, h]

theorem lineFoldF_cons_error {st : BuildStateF} {raw : List Char} {u : Unit}
    (h : stepLineF st raw = .error u) (rest : List (List Char)) :
    lineFoldF (raw :: rest) st = .error u := by
  simp [lineFoldF, h]

/-- What a single retrievability fact looks like on a build state. -/
def BuildHas (st : BuildStateF) (q x : List Char) : Prop :=
  (∃ sh ∈ st.shards, HasSet sh.2 q x) ∨ HasSet st.temp q x

theorem stepLineF_BuildHas_mono {st st' : BuildStateF} {raw : List Char}
    {q x : List Char} (h : stepLineF st raw = .ok st')
    (hh : BuildHas st q x) : BuildHas st' q x := by
  by_cases hb : strip raw = []
  · rw [stepLineF_blank hb] at h
    injection h with h
    exact h ▸ hh
  · by_cases hc : st.count ≠ 0 ∧ st.count % 100 = 0
    · rw [stepLineF_flush hb hc.1 hc.2] at h
      have hsh := tokFoldF_shards _ h
      rcases hh with ⟨sh, hm, hhs⟩ | hhs
      · exact Or.inl ⟨sh, by rw [hsh]; exact List.mem_append.mpr (Or.inl hm), hhs⟩
      · exact Or.inl ⟨(st.count, st.temp), by
          rw [hsh]
          exact List.mem_append.mpr (Or.inr (List.mem_singleton.mpr rfl)), hhs⟩
    · rw [stepLineF_noflush hb hc] at h
      rcases hh with ⟨sh, hm, hhs⟩ | hhs
      · exact Or.inl ⟨sh, by rw [tokFoldF_shards _ h]; exact hm, hhs⟩
      · exact Or.inr (tokFoldF_temp_mono h hhs)

theorem stepLineF_BuildHas_intro {st st' : BuildStateF} {raw tok q : List Char}
    (h : stepLineF st raw = .ok st') (hb : strip raw ≠ [])
    (htok : tok ∈ splitOnSpace (strip raw))
    (hq : q ∈ generate_substrings tok) : BuildHas st' q (strip raw) := by
  by_cases hc : st.count ≠ 0 ∧ st.count % 100 = 0
  · rw [stepLineF_flush hb hc.1 hc.2] at h
    exact Or.inr (tokFoldF_intro h htok hq)
  · rw [stepLineF_noflush hb hc] at h
    exact Or.inr (tokFoldF_intro h htok hq)

theorem lineFoldF_BuildHas {lines : List (List Char)} :
    ∀ {st stF : BuildStateF} {q x : List Char},
    lineFoldF lines st = .ok stF → BuildHas st q x → BuildHas stF q x := by
  induction lines with
  | nil => intro st stF q x h hh; injection h with h; exact h ▸ hh
  | cons raw rest ih =>
    intro st stF q x h hh
    cases h2 : stepLineF st raw with
    | error u => rw [lineFoldF_cons_error h2] at h; exact absurd h (by simp)
    | ok st1 =>
      rw [lineFoldF_cons_ok h2] at h
      exact ih h (stepLineF_BuildHas_mono h2 hh)

theorem lineFoldF_BuildHas_intro {lines : List (List Char)} :
    ∀ {st stF : BuildStateF} {raw tok q : List Char},
    lineFoldF lines st = .ok stF → raw ∈ lines → strip raw ≠ [] →
    tok ∈ splitOnSpace (strip raw) → q ∈ generate_substrings tok →
    BuildHas stF q (strip raw) := by
  induction lines with
  | nil => intro st stF raw tok q h hm; exact absurd hm (List.not_mem_nil raw)
  | cons r rest ih =>
    intro st stF raw tok q h hm hb htok hq
    cases h2 : stepLineF st r with
    | error u => rw [lineFoldF_cons_error h2] at h; exact absurd h (by simp)
    | ok st1 =>
      rw [lineFoldF_cons_ok h2] at h
      rcases List.mem_cons.mp hm with rfl | hm
      · exact lineFoldF_BuildHas h (stepLineF_BuildHas_intro h2 hb htok hq)
      · exact ih h hm hb htok hq

/-! ### The Shardy invariant through the faithful build -/

/-- The in-memory dict and all flushed shards are well-formed. -/
def ShardyState (st : BuildStateF) : Prop :=
  Shardy st.temp ∧ ∀ sh ∈ st.shards, Shardy sh.2

theorem tokFoldF_Shardy {line : List Char} {toks : List (List Char)}
    {st st' : BuildStateF} (h : tokFoldF line toks st = .ok st')
    (hsh : ShardyState st) : ShardyState st' := by
  induction toks generalizing st with
  | nil => injection h with h; exact h ▸ hsh
  | cons t ts ih =>
    cases h2 : make_trieE (generate_substrings t) line st.temp with
    | error u => rw [tokFoldF_cons_error h2] at h; exact absurd h (by simp)
    | ok v1 =>
      rw [tokFoldF_cons_ok h2] at h
      refine ih h ⟨?_, hsh.2⟩
      exact make_trieE_Shardy
        (fun w hw => ne_nil_of_mem_generate_substrings hw) h2 hsh.1

theorem stepLineF_Shardy {st st' : BuildStateF} {raw : List Char}
    (h : stepLineF st raw = .ok st') (hsh : ShardyState st) : ShardyState st' := by
  by_cases hb : strip raw = []
  · rw [stepLineF_blank hb] at h
    injection h with h
    exact h ▸ hsh
  · by_cases hc : st.count ≠ 0 ∧ st.count % 100 = 0
    · rw [stepLineF_flush hb hc.1 hc.2] at h
      refine tokFoldF_Shardy h ⟨shardy_empty, fun sh hm => ?_⟩
      rcases List.mem_append.mp hm with hm | hm
      · exact hsh.2 sh hm
      · rw [List.mem_singleton.mp hm]
        exact hsh.1
    · rw [stepLineF_noflush hb hc] at h
      exact tokFoldF_Shardy h hsh

theorem lineFoldF_Shardy {lines : List (List Char)} :
    ∀ {st stF : BuildStateF},
    lineFoldF lines st = .ok stF → ShardyState st → ShardyState stF := by
  induction lines with
  | nil => intro st stF h hsh; injection h with h; exact h ▸ hsh
  | cons raw rest ih =>
    intro st stF h hsh
    cases h2 : stepLineF st raw with
    | error u => rw [lineFoldF_cons_error h2] at h; exact absurd h (by simp)
    | ok st1 =>
      rw [lineFoldF_cons_ok h2] at h
      exact ih h (stepLineF_Shardy h2 hsh)

/-! ### Extraction: a completed build disciplines every token -/

theorem lineFoldF_ok_mem {lines : List (List Char)} :
    ∀ {st stF : BuildStateF} {raw : List Char},
    lineFoldF lines st = .ok stF → raw ∈ lines →
    ∃ st1 st2, stepLineF st1 raw = .ok st2 := by
  induction lines with
  | nil => intro st stF raw h hm; exact absurd hm (List.not_mem_nil raw)
  | cons r rest ih =>
    intro st stF raw h hm
    cases h2 : stepLineF st r with
    | error u => rw [lineFoldF_cons_error h2] at h; exact absurd h (by simp)
    | ok st1 =>
      rw [lineFoldF_cons_ok h2] at h
      rcases List.mem_cons.mp hm with rfl | hm
      · exact ⟨st, st1, h2⟩
      · exact ih h hm

theorem tokFoldF_ok_mem {line : List Char} {toks : List (List Char)} :
    ∀ {st st' : BuildStateF} {tok : List Char},
    tokFoldF line toks st = .ok st' → tok ∈ toks →
    ∃ v v', make_trieE (generate_substrings tok) line v = .ok v' := by
  induction toks with
  | nil => intro st st' tok h hm; exact absurd hm (List.not_mem_nil tok)
  | cons t ts ih =>
    intro st st' tok h hm
    cases h2 : make_trieE (generate_substrings t) line st.temp with
    | error u => rw [tokFoldF_cons_error h2] at h; exact absurd h (by simp)
    | ok v1 =>
      rw [tokFoldF_cons_ok h2] at h
      rcases List.mem_cons.mp hm with rfl | hm
      · exact ⟨st.temp, v1, h2⟩
      · exact ih h hm

theorem token_disc {corpus : List (List Char)} {shards : List (Nat × PyVal)}
    {raw tok : List Char}
    (hok : parse_and_insertF corpus = .ok shards) (hline : raw ∈ corpus)
    (hb : strip raw ≠ []) (htok : tok ∈ splitOnSpace (strip raw)) :
    '_' ∉ tok.drop 1 := by
  unfold parse_and_insertF at hok
  cases hfold : lineFoldF corpus ⟨0, .dict [], []⟩ with
  | error u => rw [hfold] at hok; exact absurd hok (by simp)
  | ok fin =>
    obtain ⟨st1, st2, hstep⟩ := lineFoldF_ok_mem hfold hline
    have htf : ∃ stA stB, tokFoldF (strip raw) (splitOnSpace (strip raw)) stA
        = .ok stB := by
      by_cases hc : st1.count ≠ 0 ∧ st1.count % 100 = 0
      · rw [stepLineF_flush hb hc.1 hc.2] at hstep
        exact ⟨_, st2, hstep⟩
      · rw [stepLineF_noflush hb hc] at hstep
        exact ⟨st1, st2, hstep⟩
    obtain ⟨stA, stB, htf⟩ := htf
    obtain ⟨v, v', hmk⟩ := tokFoldF_ok_mem htf htok
    exact no_underscore_of_make_trieE_ok hmk

/-! ### Assembling the search over all shards -/

theorem searchAccF_cons_ok {q : List Char} {sh : Nat × PyVal} {r : PyRes}
    (h : search_trieE q sh.2 = .ok r) (rest : List (Nat × PyVal))
    (acc : List (List Char)) :
    searchAccF (sh :: rest) q acc = searchAccF rest q (acc ++ resContrib r) := by
  simp [searchAccF, h]

theorem searchAccF_ok_mem {q : List Char} (shards : List (Nat × PyVal)) :
    ∀ acc : List (List Char),
    (∀ sh ∈ shards, ∃ r, search_trieE q sh.2 = .ok r) →
    ∃ res, searchAccF shards q acc = .ok res
      ∧ (∀ y ∈ acc, y ∈ res)
      ∧ ∀ sh ∈ shards, ∀ s, search_trieE q sh.2 = .ok (.asSet s) →
          ∀ y ∈ s, y ∈ res := by
  induction shards with
  | nil =>
    intro acc _
    exact ⟨acc, rfl, fun y hy => hy,
      fun sh hm => absurd hm (List.not_mem_nil sh)⟩
  | cons sh rest ih =>
    intro acc hall
    obtain ⟨r, hr⟩ := hall sh (List.mem_cons_self _ _)
    obtain ⟨res, hres, haccm, hclause⟩ :=
      ih (acc ++ resContrib r) (fun x hx => hall x (List.mem_cons_of_mem _ hx))
    refine ⟨res, by rw [searchAccF_cons_ok hr]; exact hres, ?_, ?_⟩
    · intro y hy
      exact haccm y (List.mem_append.mpr (Or.inl hy))
    · intro sh0 hm s hs y hy
      rcases List.mem_cons.mp hm with rfl | hm
      · rw [hr] at hs
        injection hs with hs
        subst hs
        exact haccm y (List.mem_append.mpr (Or.inr hy))
      · exact hclause sh0 hm s hs y hy


/-! ### Simulation between the abstract and the faithful model

On corpora and queries that contain no `_` character the FINISH_MARKER
key cannot collide with a character key, and the faithful `PyVal` build
and search agree with the abstract `Trie` model. -/

/-- `Sim t v`: the faithful dict `v` represents the abstract trie node
`t`: its `_` entry is exactly the terminal payload (as a FINISH set), and
its other entries agree pointwise with the children, recursively. -/
inductive Sim : Trie → PyVal → Prop where
  | mk (ch : List (Char × Trie)) (term : Option (List (List Char)))
      (e : List (Char × PyVal)) :
      (term = none → lookupP e '_' = none) →
      (∀ s, term = some s → lookupP e '_' = some (.pyset s)) →
      (∀ c, c ≠ '_' → lookupChild ch c = none → lookupP e c = none) →
      (∀ c t, c ≠ '_' → lookupChild ch c = some t → lookupP e c ≠ none) →
      (∀ c t v, c ≠ '_' → lookupChild ch c = some t → lookupP e c = some v →
        Sim t v) →
      Sim (.node ch term) (.dict e)

theorem sim_empty : Sim emptyTrie (.dict []) :=
  Sim.mk [] none [] (fun _ => rfl)
    (fun s hs => absurd hs (by simp))
    (fun _ _ _ => rfl)
    (fun a t2 _ hsome => absurd hsome (by simp [lookupChild]))
    (fun a t2 v2 _ _ hlk => absurd hlk (by simp [lookupP]))

/-- Updating a non-FINISH key with simulating values preserves `Sim`. -/
theorem sim_update {ch : List (Char × Trie)} {term : Option (List (List Char))}
    {e : List (Char × PyVal)} {c : Char} {X : Trie} {v1 : PyVal}
    (hcne : c ≠ '_') (hsim : Sim (.node ch term) (.dict e)) (hX : Sim X v1) :
    Sim (.node (updateAssoc ch c X) term) (.dict (updateP e c v1)) := by
  cases hsim with
  | mk _ _ _ h1 h2 h3 h4 h5 =>
    refine Sim.mk _ term _ ?_ ?_ ?_ ?_ ?_
    · intro hterm
      rw [lookupP_updateP, if_neg (fun hh => hcne hh.symm)]
      exact h1 hterm
    · intro s hs
      rw [lookupP_updateP, if_neg (fun hh => hcne hh.symm)]
      exact h2 s hs
    · intro a ha hnone
      rw [lookupChild_updateAssoc] at hnone
      by_cases hac : a = c
      · rw [if_pos hac] at hnone
        exact absurd hnone (by simp)
      · rw [if_neg hac] at hnone
        rw [lookupP_updateP, if_neg hac]
        exact h3 a ha hnone
    · intro a t2 ha hsome
      by_cases hac : a = c
      · rw [lookupP_updateP, if_pos hac]
        simp
      · rw [lookupChild_updateAssoc, if_neg hac] at hsome
        rw [lookupP_updateP, if_neg hac]
        exact h4 a t2 ha hsome
    · intro a t2 v2 ha hsome hlk
      rw [lookupChild_updateAssoc] at hsome
      rw [lookupP_updateP] at hlk
      by_cases hac : a = c
      · rw [if_pos hac] at hsome
        rw [if_pos hac] at hlk
        injection hsome with hsome
        injection hlk with hlk
        subst hsome
        subst hlk
        exact hX
      · rw [if_neg hac] at hsome
        rw [if_neg hac] at hlk
        exact h5 a t2 v2 ha hsome hlk

/-- Setting the terminal payload preserves `Sim`. -/
theorem sim_set_terminal {ch : List (Char × Trie)}
    {term : Option (List (List Char))} {e : List (Char × PyVal)}
    (s : List (List Char)) (hsim : Sim (.node ch term) (.dict e)) :
    Sim (.node ch (some s)) (.dict (updateP e '_' (.pyset s))) := by
  cases hsim with
  | mk _ _ _ h1 h2 h3 h4 h5 =>
    refine Sim.mk _ (some s) _ (fun hcon => absurd hcon (by simp)) ?_ ?_ ?_ ?_
    · intro s2 hs
      injection hs with hs
      subst hs
      rw [lookupP_updateP, if_pos rfl]
    · intro a ha hnone
      rw [lookupP_updateP, if_neg ha]
      exact h3 a ha hnone
    · intro a t2 ha hsome
      rw [lookupP_updateP, if_neg ha]
      exact h4 a t2 ha hsome
    · intro a t2 v2 ha hsome hlk
      rw [lookupP_updateP, if_neg ha] at hlk
      exact h5 a t2 v2 ha hsome hlk

/-- On a `_`-free word the faithful insertion completes and simulates
the abstract one. -/
theorem insertE_sim (w : List Char) : ∀ (p : List Char) (t : Trie) (v : PyVal),
    '_' ∉ w → Sim t v →
    ∃ v', insertE w p v = .ok v' ∧ Sim (insertWord w p t) v' := by
  induction w with
  | nil =>
    intro p t v _ hsim
    cases hsim with
    | mk ch term e h1 h2 h3 h4 h5 =>
      have hsim0 : Sim (.node ch term) (.dict e) := Sim.mk ch term e h1 h2 h3 h4 h5
      cases term with
      | none =>
        refine ⟨_, insertE_nil_none (h1 rfl) p, ?_⟩
        exact sim_set_terminal (addToSet [] p) hsim0
      | some s0 =>
        refine ⟨_, insertE_nil_pyset (h2 s0 rfl) p, ?_⟩
        exact sim_set_terminal (addToSet s0 p) hsim0
  | cons c rest ih =>
    intro p t v hw hsim
    have hcne : c ≠ '_' := by
      intro h
      subst h
      exact hw (List.mem_cons_self '_' rest)
    have hrest : '_' ∉ rest := fun h => hw (List.mem_cons_of_mem c h)
    cases hsim with
    | mk ch term e h1 h2 h3 h4 h5 =>
      have hsim0 : Sim (.node ch term) (.dict e) := Sim.mk ch term e h1 h2 h3 h4 h5
      cases hlc : lookupChild ch c with
      | none =>
        have hlp : lookupP e c = none := h3 c hcne hlc
        obtain ⟨v1, hins, hsem⟩ := ih p emptyTrie (.dict []) hrest sim_empty
        have hins2 : insertE rest p ((lookupP e c).getD (.dict [])) = .ok v1 := by
          rw [hlp]
          exact hins
        refine ⟨_, insertE_cons_ok hins2, ?_⟩
        have habs : insertWord (c :: rest) p (Trie.node ch term)
            = Trie.node (updateAssoc ch c (insertWord rest p emptyTrie)) term := by
          rw [show insertWord (c :: rest) p (Trie.node ch term)
            = Trie.node (updateAssoc ch c
                (insertWord rest p ((lookupChild ch c).getD emptyTrie))) term from rfl,
            hlc]
          rfl
        rw [habs]
        exact sim_update hcne hsim0 hsem
      | some tc =>
        cases hlp : lookupP e c with
        | none => exact absurd hlp (h4 c tc hcne hlc)
        | some vc =>
          obtain ⟨v1, hins, hsem⟩ := ih p tc vc hrest (h5 c tc vc hcne hlc hlp)
          have hins2 : insertE rest p ((lookupP e c).getD (.dict [])) = .ok v1 := by
            rw [hlp]
            exact hins
          refine ⟨_, insertE_cons_ok hins2, ?_⟩
          have habs : insertWord (c :: rest) p (Trie.node ch term)
              = Trie.node (updateAssoc ch c (insertWord rest p tc)) term := by
            rw [show insertWord (c :: rest) p (Trie.node ch term)
              = Trie.node (updateAssoc ch c
                  (insertWord rest p ((lookupChild ch c).getD emptyTrie))) term from rfl,
              hlc]
            rfl
          rw [habs]
          exact sim_update hcne hsim0 hsem

/-- On `_`-free words the faithful `make_trie` completes and simulates the
abstract one. -/
theorem make_trieE_sim (ws : List (List Char)) : ∀ (p : List Char) (t : Trie)
    (v : PyVal), (∀ w ∈ ws, '_' ∉ w) → Sim t v →
    ∃ v', make_trieE ws p v = .ok v' ∧ Sim (make_trie ws p t) v' := by
  induction ws with
  | nil =>
    intro p t v _ hsim
    exact ⟨v, rfl, hsim⟩
  | cons w ws ih =>
    intro p t v hdisc hsim
    obtain ⟨v1, hins, hsim1⟩ :=
      insertE_sim w p t v (hdisc w (List.mem_cons_self w ws)) hsim
    obtain ⟨v', hmk, hsim'⟩ := ih p (insertWord w p t) v1
      (fun x hx => hdisc x (List.mem_cons_of_mem w hx)) hsim1
    refine ⟨v', ?_, ?_⟩
    · rw [make_trieE_cons_ok hins]
      exact hmk
    · show Sim (make_trie ws p (insertWord w p t)) v'
      exact hsim'

/-- On a `_`-free query the faithful search completes and its contribution
is exactly the abstract search result. -/
theorem search_trieE_sim (q : List Char) : ∀ (t : Trie) (v : PyVal),
    '_' ∉ q → Sim t v →
    ∃ r, search_trieE q v = .ok r ∧ resContrib r = search_trie q t := by
  induction q with
  | nil =>
    intro t v _ hsim
    cases hsim with
    | mk ch term e h1 h2 h3 h4 h5 =>
      cases term with
      | none => exact ⟨.asList, searchE_nil_none (h1 rfl), rfl⟩
      | some s => exact ⟨.asSet s, searchE_nil_set (h2 s rfl), rfl⟩
  | cons c rest ih =>
    intro t v hq hsim
    have hcq : c ≠ '_' := by
      intro h
      subst h
      exact hq (List.mem_cons_self '_' rest)
    have hrq : '_' ∉ rest := fun h => hq (List.mem_cons_of_mem c h)
    cases hsim with
    | mk ch term e h1 h2 h3 h4 h5 =>
      cases hlc : lookupChild ch c with
      | none =>
        refine ⟨.asList, searchE_cons_none (h3 c hcq hlc) rest, ?_⟩
        simp [search_trie, Trie.children, hlc, resContrib]
      | some tc =>
        cases hlp : lookupP e c with
        | none => exact absurd hlp (h4 c tc hcq hlc)
        | some vc =>
          obtain ⟨r, hse, hrc⟩ := ih tc vc hrq (h5 c tc vc hcq hlc hlp)
          refine ⟨r, ?_, ?_⟩
          · rw [searchE_cons_some hlp rest]
            exact hse
          · rw [hrc]
            simp [search_trie, Trie.children, hlc]

/-! ### Character-subset lemmas: tokens and substrings of a `_`-free line
are `_`-free -/

theorem mem_of_mem_generate_substrings {c : Char} {w tok : List Char}
    (hw : w ∈ generate_substrings tok) (hc : c ∈ w) : c ∈ tok := by
  unfold generate_substrings at hw
  rw [List.mem_flatMap] at hw
  obtain ⟨start, _, hw⟩ := hw
  rw [List.mem_map] at hw
  obtain ⟨k, _, rfl⟩ := hw
  exact List.mem_of_mem_drop (List.mem_of_mem_take hc)

theorem mem_of_mem_strip {c : Char} {l : List Char} (h : c ∈ strip l) : c ∈ l := by
  unfold strip at h
  rw [List.mem_reverse] at h
  have h2 := List.dropWhile_subset isPySpace h
  rw [List.mem_reverse] at h2
  exact List.dropWhile_subset isPySpace h2

theorem mem_of_mem_splitOnSpace {c : Char} : ∀ {l tok : List Char},
    tok ∈ splitOnSpace l → c ∈ tok → c ∈ l := by
  intro l
  induction l with
  | nil =>
    intro tok hm hc
    rw [show splitOnSpace [] = [[]] from rfl, List.mem_singleton] at hm
    subst hm
    exact absurd hc (List.not_mem_nil c)
  | cons d rest ih =>
    intro tok hm hc
    by_cases hd : d = ' '
    · rw [show splitOnSpace (d :: rest) = [] :: splitOnSpace rest from by
        simp [splitOnSpace, hd]] at hm
      rcases List.mem_cons.mp hm with hm | hm
      · subst hm
        exact absurd hc (List.not_mem_nil c)
      · exact List.mem_cons_of_mem d (ih hm hc)
    · cases hsp : splitOnSpace rest with
      | nil => exact absurd hsp (splitOnSpace_ne_nil rest)
      | cons t ts =>
        rw [show splitOnSpace (d :: rest) = (d :: t) :: ts from by
          simp [splitOnSpace, hd, hsp]] at hm
        rcases List.mem_cons.mp hm with hm | hm
        · subst hm
          rcases List.mem_cons.mp hc with hc | hc
          · rw [hc]
            exact List.mem_cons_self d rest
          · refine List.mem_cons_of_mem d (ih ?_ hc)
            rw [hsp]
            exact List.mem_cons_self t ts
        · refine List.mem_cons_of_mem d (ih ?_ hc)
          rw [hsp]
          exact List.mem_cons_of_mem t hm

/-! ### Build-level simulation -/

/-- Shard correspondence: same numeric name, simulating tries. -/
def ShardSim (a : Nat × Trie) (b : Nat × PyVal) : Prop :=
  a.1 = b.1 ∧ Sim a.2 b.2

/-- Build-state correspondence between the abstract and faithful loop. -/
def SimState (st : BuildState) (stF : BuildStateF) : Prop :=
  st.count = stF.count ∧ Sim st.temp stF.temp
    ∧ List.Forall₂ ShardSim st.shards stF.shards

theorem tokFoldF_sim (toks : List (List Char)) : ∀ (line : List Char)
    (st : BuildState) (stF : BuildStateF),
    (∀ tok ∈ toks, '_' ∉ tok) → SimState st stF →
    ∃ stF', tokFoldF line toks stF = .ok stF'
      ∧ SimState (toks.foldl (tokStep line) st) stF' := by
  induction toks with
  | nil =>
    intro line st stF _ hsim
    exact ⟨stF, rfl, hsim⟩
  | cons tok toks ih =>
    intro line st stF hdisc hsim
    obtain ⟨hcnt, htemp, hsh⟩ := hsim
    have hsub : ∀ w ∈ generate_substrings tok, '_' ∉ w := by
      intro w hw hmem
      exact hdisc tok (List.mem_cons_self tok toks)
        (mem_of_mem_generate_substrings hw hmem)
    obtain ⟨v', hmk, hsimv⟩ :=
      make_trieE_sim (generate_substrings tok) line st.temp stF.temp hsub htemp
    rw [List.foldl_cons, tokFoldF_cons_ok hmk]
    refine ih line _ _ (fun x hx => hdisc x (List.mem_cons_of_mem tok hx)) ⟨?_, ?_, ?_⟩
    · show st.count + 1 = stF.count + 1
      rw [hcnt]
    · exact hsimv
    · exact hsh

theorem stepLineF_sim {st : BuildState} {stF : BuildStateF} {raw : List Char}
    (hraw : '_' ∉ raw) (hsim : SimState st stF) :
    ∃ stF', stepLineF stF raw = .ok stF' ∧ SimState (stepLine st raw) stF' := by
  by_cases hb : strip raw = []
  · refine ⟨stF, stepLineF_blank hb, ?_⟩
    rw [show stepLine st raw = st from by simp [stepLine, hb]]
    exact hsim
  · have htoks : ∀ tok ∈ splitOnSpace (strip raw), '_' ∉ tok := by
      intro tok htok hmem
      exact hraw (mem_of_mem_strip (mem_of_mem_splitOnSpace htok hmem))
    obtain ⟨hcnt, htemp, hsh⟩ := hsim
    by_cases hc : st.count ≠ 0 ∧ st.count % 100 = 0
    · have hcF : stF.count ≠ 0 ∧ stF.count % 100 = 0 := by
        rw [← hcnt]
        exact hc
      obtain ⟨stF', hfold, hsim'⟩ := tokFoldF_sim (splitOnSpace (strip raw))
        (strip raw) ⟨st.count, emptyTrie, st.shards ++ [(st.count, st.temp)]⟩
        ⟨stF.count, .dict [], stF.shards ++ [(stF.count, stF.temp)]⟩ htoks
        ⟨hcnt, sim_empty,
          List.rel_append hsh (List.Forall₂.cons ⟨hcnt, htemp⟩ List.Forall₂.nil)⟩
      refine ⟨stF', ?_, ?_⟩
      · rw [stepLineF_flush hb hcF.1 hcF.2]
        exact hfold
      · rw [show stepLine st raw
          = (splitOnSpace (strip raw)).foldl (tokStep (strip raw))
              ⟨st.count, emptyTrie, st.shards ++ [(st.count, st.temp)]⟩ from by
            simp [stepLine, hb, hc]]
        exact hsim'
    · have hcF : ¬(stF.count ≠ 0 ∧ stF.count % 100 = 0) := by
        rw [← hcnt]
        exact hc
      obtain ⟨stF', hfold, hsim'⟩ := tokFoldF_sim (splitOnSpace (strip raw))
        (strip raw) st stF htoks ⟨hcnt, htemp, hsh⟩
      refine ⟨stF', ?_, ?_⟩
      · rw [stepLineF_noflush hb hcF]
        exact hfold
      · rw [show stepLine st raw
          = (splitOnSpace (strip raw)).foldl (tokStep (strip raw)) st from by
            simp [stepLine, hb, hc]]
        exact hsim'

theorem lineFoldF_sim (lines : List (List Char)) : ∀ (st : BuildState)
    (stF : BuildStateF),
    (∀ l ∈ lines, '_' ∉ l) → SimState st stF →
    ∃ stF', lineFoldF lines stF = .ok stF'
      ∧ SimState (lines.foldl stepLine st) stF' := by
  induction lines with
  | nil =>
    intro st stF _ hsim
    exact ⟨stF, rfl, hsim⟩
  | cons raw rest ih =>
    intro st stF hdisc hsim
    obtain ⟨stF1, hstep, hsim1⟩ :=
      stepLineF_sim (hdisc raw (List.mem_cons_self raw rest)) hsim
    obtain ⟨stF', hfold, hsim'⟩ := ih (stepLine st raw) stF1
      (fun l hl => hdisc l (List.mem_cons_of_mem raw hl)) hsim1
    refine ⟨stF', ?_, ?_⟩
    · rw [lineFoldF_cons_ok hstep]
      exact hfold
    · rw [List.foldl_cons]
      exact hsim'

/-- On a `_`-free corpus the faithful build completes and its shards
simulate the abstract ones, pairwise and name for name. -/
theorem parse_and_insertF_sim {corpus : List (List Char)}
    (hc : ∀ l ∈ corpus, '_' ∉ l) :
    ∃ shardsF, parse_and_insertF corpus = .ok shardsF
      ∧ List.Forall₂ ShardSim (parse_and_insert corpus) shardsF := by
  obtain ⟨fin, hfold, hsim⟩ := lineFoldF_sim corpus ⟨0, emptyTrie, []⟩
    ⟨0, .dict [], []⟩ hc ⟨rfl, sim_empty, List.Forall₂.nil⟩
  obtain ⟨hcnt, htemp, hsh⟩ := hsim
  refine ⟨fin.shards ++ [(fin.count, fin.temp)], ?_, ?_⟩
  · unfold parse_and_insertF
    rw [hfold]
  · rw [show parse_and_insert corpus
      = (corpus.foldl stepLine ⟨0, emptyTrie, []⟩).shards
        ++ [((corpus.foldl stepLine ⟨0, emptyTrie, []⟩).count,
             (corpus.foldl stepLine ⟨0, emptyTrie, []⟩).temp)] from rfl]
    exact List.rel_append hsh (List.Forall₂.cons ⟨hcnt, htemp⟩ List.Forall₂.nil)

theorem tokTrieFoldF_cons_ok {line tok : List Char} {v v1 : PyVal}
    (h : make_trieE (generate_substrings tok) line v = .ok v1)
    (toks : List (List Char)) :
    tokTrieFoldF line (tok :: toks) v = tokTrieFoldF line toks v1 := by
  simp [tokTrieFoldF, h]

theorem singleFoldF_cons_blank {raw : List Char} {v : PyVal}
    (h : strip raw = []) (rest : List (List Char)) :
    singleFoldF (raw :: rest) v = singleFoldF rest v := by
  simp [singleFoldF, h]

theorem singleFoldF_cons_ok {raw : List Char} {v v1 : PyVal}
    (h : strip raw ≠ [])
    (h2 : tokTrieFoldF (strip raw) (splitOnSpace (strip raw)) v = .ok v1)
    (rest : List (List Char)) :
    singleFoldF (raw :: rest) v = singleFoldF rest v1 := by
  simp [singleFoldF, h, h2]

theorem tokTrieFoldF_sim (toks : List (List Char)) : ∀ (line : List Char)
    (t : Trie) (v : PyVal),
    (∀ tok ∈ toks, '_' ∉ tok) → Sim t v →
    ∃ v', tokTrieFoldF line toks v = .ok v'
      ∧ Sim (toks.foldl
          (fun acc tok => make_trie (generate_substrings tok) line acc) t) v' := by
  induction toks with
  | nil =>
    intro line t v _ hsim
    exact ⟨v, rfl, hsim⟩
  | cons tok toks ih =>
    intro line t v hdisc hsim
    have hsub : ∀ w ∈ generate_substrings tok, '_' ∉ w := by
      intro w hw hmem
      exact hdisc tok (List.mem_cons_self tok toks)
        (mem_of_mem_generate_substrings hw hmem)
    obtain ⟨v1, hmk, hsim1⟩ :=
      make_trieE_sim (generate_substrings tok) line t v hsub hsim
    obtain ⟨v', hfold, hsim'⟩ :=
      ih line _ v1 (fun x hx => hdisc x (List.mem_cons_of_mem tok hx)) hsim1
    refine ⟨v', ?_, ?_⟩
    · rw [tokTrieFoldF_cons_ok hmk]
      exact hfold
    · rw [List.foldl_cons]
      exact hsim'

theorem singleFoldF_sim (lines : List (List Char)) : ∀ (t : Trie) (v : PyVal),
    (∀ l ∈ lines, '_' ∉ l) → Sim t v →
    ∃ v', singleFoldF lines v = .ok v' ∧ Sim (lines.foldl singleStep t) v' := by
  induction lines with
  | nil =>
    intro t v _ hsim
    exact ⟨v, rfl, hsim⟩
  | cons raw rest ih =>
    intro t v hdisc hsim
    by_cases hb : strip raw = []
    · obtain ⟨v', hfold, hsim'⟩ :=
        ih t v (fun l hl => hdisc l (List.mem_cons_of_mem raw hl)) hsim
      refine ⟨v', ?_, ?_⟩
      · rw [singleFoldF_cons_blank hb]
        exact hfold
      · rw [List.foldl_cons, show singleStep t raw = t from by simp [singleStep, hb]]
        exact hsim'
    · have htoks : ∀ tok ∈ splitOnSpace (strip raw), '_' ∉ tok := by
        intro tok htok hmem
        exact hdisc raw (List.mem_cons_self raw rest)
          (mem_of_mem_strip (mem_of_mem_splitOnSpace htok hmem))
      obtain ⟨v1, htf, hsim1⟩ :=
        tokTrieFoldF_sim (splitOnSpace (strip raw)) (strip raw) t v htoks hsim
      obtain ⟨v', hfold, hsim'⟩ :=
        ih _ v1 (fun l hl => hdisc l (List.mem_cons_of_mem raw hl)) hsim1
      refine ⟨v', ?_, ?_⟩
      · rw [singleFoldF_cons_ok hb htf]
        exact hfold
      · rw [List.foldl_cons, show singleStep t raw
          = (splitOnSpace (strip raw)).foldl
              (fun acc tok => make_trie (generate_substrings tok) (strip raw) acc) t
          from by simp [singleStep, hb]]
        exact hsim'

/-- On a `_`-free corpus the faithful single-trie build completes and
simulates the abstract one. -/
theorem build_singleF_sim {corpus : List (List Char)}
    (hc : ∀ l ∈ corpus, '_' ∉ l) :
    ∃ v, build_singleF corpus = .ok v ∧ Sim (build_single corpus) v :=
  singleFoldF_sim corpus emptyTrie (.dict []) hc sim_empty

theorem searchAccF_sim {q : List Char} (hq : '_' ∉ q) :
    ∀ {shardsA : List (Nat × Trie)} {shardsF : List (Nat × PyVal)},
    List.Forall₂ ShardSim shardsA shardsF → ∀ acc : List (List Char),
    searchAccF shardsF q acc
      = .ok (acc ++ shardsA.flatMap fun sh => search_trie q sh.2) := by
  intro shardsA shardsF hsim
  induction hsim with
  | nil =>
    intro acc
    simp [searchAccF]
  | cons hab htail ih =>
    intro acc
    obtain ⟨r, hse, hrc⟩ := search_trieE_sim q _ _ hq hab.2
    rw [searchAccF_cons_ok hse, ih, hrc, List.flatMap_cons, ← List.append_assoc]

/-- On `_`-free inputs the faithful sharded search completes and returns
exactly the abstract sharded search result. -/
theorem searchF_sim {q : List Char} {shardsA : List (Nat × Trie)}
    {shardsF : List (Nat × PyVal)} (hq : '_' ∉ q)
    (hsim : List.Forall₂ ShardSim shardsA shardsF) :
    searchF shardsF q = .ok (search shardsA q) := by
  unfold searchF
  rw [searchAccF_sim hq hsim []]
  simp [search]


/-! ### Claim theorems on the faithful model -/

/-- C1: for every token appearing in a non-blank line of the corpus, after
a COMPLETED build (the faithful build returned shards instead of crashing),
searching any contiguous substring of that token over all shards completes
and returns a result set containing the (stripped) line.  Corpora whose
build crashes (a token with `_` past its first character) satisfy the
claim vacuously: there is no completed build. -/
theorem C1_completed_build_substring_retrieval
    (corpus : List (List Char)) (raw tok : List Char) (i k : Nat)
    (shards : List (Nat × PyVal))
    (hline : raw ∈ corpus) (hnb : strip raw ≠ [])
    (htok : tok ∈ splitOnSpace (strip raw)) (hik : i + k < tok.length)
    (hok : parse_and_insertF corpus = .ok shards) :
    ∃ res, searchF shards ((tok.drop i).take (k + 1)) = .ok res
      ∧ strip raw ∈ res := by
  have hqgs : (tok.drop i).take (k + 1) ∈ generate_substrings tok :=
    mem_generate_substrings_of tok i k hik
  have hdisc : '_' ∉ tok.drop 1 := token_disc hok hline hnb htok
  have hqdisc : '_' ∉ ((tok.drop i).take (k + 1)).drop 1 := by
    intro hmem
    apply hdisc
    rw [List.drop_take, List.drop_drop] at hmem
    have h1 : '_' ∈ tok.drop (i + 1) := List.mem_of_mem_take hmem
    rw [show i + 1 = 1 + i from by omega, ← List.drop_drop] at h1
    exact List.mem_of_mem_drop h1
  unfold parse_and_insertF at hok
  cases hfold : lineFoldF corpus ⟨0, .dict [], []⟩ with
  | error u => rw [hfold] at hok; exact absurd hok (by simp)
  | ok fin =>
    rw [hfold] at hok
    injection hok with hok
    subst hok
    have hbh : BuildHas fin ((tok.drop i).take (k + 1)) (strip raw) :=
      lineFoldF_BuildHas_intro hfold hline hnb htok hqgs
    have hshst : ShardyState fin := lineFoldF_Shardy hfold
      ⟨shardy_empty, fun sh hm => absurd hm (List.not_mem_nil sh)⟩
    have hshAll : ∀ sh ∈ fin.shards ++ [(fin.count, fin.temp)], Shardy sh.2 := by
      intro sh hm
      rcases List.mem_append.mp hm with hm | hm
      · exact hshst.2 sh hm
      · rw [List.mem_singleton.mp hm]
        exact hshst.1
    have hallok : ∀ sh ∈ fin.shards ++ [(fin.count, fin.temp)],
        ∃ r, search_trieE ((tok.drop i).take (k + 1)) sh.2 = .ok r :=
      fun sh hm => search_ok_of_shardy (hshAll sh hm) hqdisc
    have hgood : ∃ sh ∈ fin.shards ++ [(fin.count, fin.temp)],
        HasSet sh.2 ((tok.drop i).take (k + 1)) (strip raw) := by
      rcases hbh with ⟨sh, hm, hhs⟩ | hhs
      · exact ⟨sh, List.mem_append.mpr (Or.inl hm), hhs⟩
      · exact ⟨(fin.count, fin.temp),
          List.mem_append.mpr (Or.inr (List.mem_singleton.mpr rfl)), hhs⟩
    obtain ⟨gsh, hgm, e, s0, hgd, hgl, hgx⟩ := hgood
    obtain ⟨res, hres, _, hclause⟩ :=
      searchAccF_ok_mem (fin.shards ++ [(fin.count, fin.temp)]) [] hallok
    refine ⟨res.dedup, ?_, ?_⟩
    · unfold searchF
      rw [hres]
    · rw [List.mem_dedup]
      exact hclause gsh hgm s0
        (searchE_of_descend _ gsh.2 e s0 hgd hgl) (strip raw) hgx

/-- Witness for C1: the corpus `["ab"]` builds, and the substring `"b"`
of the token `"ab"` retrieves the line. -/
theorem C1_completed_build_substring_retrieval_witness :
    ∃ res, searchF [(1, PyVal.dict
        [('a', PyVal.dict [('_', PyVal.pyset [strToChars "ab"]),
            ('b', PyVal.dict [('_', PyVal.pyset [strToChars "ab"])])]),
         ('b', PyVal.dict [('_', PyVal.pyset [strToChars "ab"])])])]
        (((strToChars "ab").drop 1).take (0 + 1)) = .ok res
      ∧ strip (strToChars "ab") ∈ res :=
  C1_completed_build_substring_retrieval [strToChars "ab"] (strToChars "ab")
    (strToChars "ab") 1 0
    [(1, PyVal.dict
        [('a', PyVal.dict [('_', PyVal.pyset [strToChars "ab"]),
            ('b', PyVal.dict [('_', PyVal.pyset [strToChars "ab"])])]),
         ('b', PyVal.dict [('_', PyVal.pyset [strToChars "ab"])])])]
    (by decide) (by decide) (by decide) (by decide) (by rfl)

/-- Counterexample for C2 as stated: the corpus `["a"]` builds into a
single shard, but the query `"a_a"` crashes the search with a `TypeError`
(the descent steps into the FINISH set and subscripts it), so the sharded
search does not return any result set at all. -/
theorem C2_search_crash_cex :
    parse_and_insertF [strToChars "a"]
      = Except.ok [(1, PyVal.dict [('a', PyVal.dict
          [('_', PyVal.pyset [strToChars "a"])])])]
    ∧ searchF [(1, PyVal.dict [('a', PyVal.dict
          [('_', PyVal.pyset [strToChars "a"])])])]
        (strToChars "a_a") = Except.error () :=
  ⟨rfl, rfl⟩

/-- Counterexample for C3 as stated: the corpus `["_"]` builds, and the
empty query returns the nonempty set `{"_"}` — the root-level
`FINISH_MARKER in current` test matches the `_` character child (a dict)
and the search returns its keys. -/
theorem C3_empty_query_underscore_cex :
    parse_and_insertF [strToChars "_"]
      = Except.ok [(1, PyVal.dict [('_', PyVal.dict
          [('_', PyVal.pyset [strToChars "_"])])])]
    ∧ searchF [(1, PyVal.dict [('_', PyVal.dict
          [('_', PyVal.pyset [strToChars "_"])])])] []
        = Except.ok [strToChars "_"]
    ∧ [strToChars "_"] ≠ ([] : List (List Char)) :=
  ⟨rfl, rfl, by decide⟩

/-! ### Idempotence of successful insertion (C9) -/

theorem insertE_idem (w : List Char) : ∀ (p : List Char) (v v' : PyVal),
    insertE w p v = .ok v' → insertE w p v' = .ok v' := by
  induction w with
  | nil =>
    intro p v v' h
    cases v with
    | pyset s => rw [insertE_pyset] at h; exact absurd h (by simp)
    | dict e =>
      cases h2 : lookupP e '_' with
      | none =>
        rw [insertE_nil_none h2] at h
        injection h with h
        subst h
        have hl : lookupP (updateP e '_' (.pyset (addToSet [] p))) '_'
            = some (.pyset (addToSet [] p)) := by
          rw [lookupP_updateP, if_pos rfl]
        rw [insertE_nil_pyset hl p,
          addToSet_of_mem (mem_addToSet.mpr (Or.inr rfl)), updateP_self hl]
      | some v0 =>
        cases v0 with
        | dict d => rw [insertE_nil_dict h2] at h; exact absurd h (by simp)
        | pyset s0 =>
          rw [insertE_nil_pyset h2] at h
          injection h with h
          subst h
          have hl : lookupP (updateP e '_' (.pyset (addToSet s0 p))) '_'
              = some (.pyset (addToSet s0 p)) := by
            rw [lookupP_updateP, if_pos rfl]
          rw [insertE_nil_pyset hl p,
            addToSet_of_mem (mem_addToSet.mpr (Or.inr rfl)), updateP_self hl]
  | cons c rest ih =>
    intro p v v' h
    cases v with
    | pyset s => rw [insertE_pyset] at h; exact absurd h (by simp)
    | dict e =>
      cases h2 : insertE rest p ((lookupP e c).getD (.dict [])) with
      | error u => rw [insertE_cons_error h2] at h; exact absurd h (by simp)
      | ok child =>
        rw [insertE_cons_ok h2] at h
        injection h with h
        subst h
        have hl : lookupP (updateP e c child) c = some child := by
          rw [lookupP_updateP, if_pos rfl]
        have hstep : insertE rest p ((lookupP (updateP e c child) c).getD (.dict []))
            = .ok child := by
          rw [hl, Option.getD_some]
          exact ih p _ child h2
        rw [insertE_cons_ok hstep, updateP_self hl]

/-- C9: a successful re-insertion of the same originating line along the
same word changes nothing (so the terminal payload keeps a single copy);
a query for a substring shared by two distinct lines returns both lines
with no duplicates; and a line appears once in the per-shard FINISH set
even when the queried substring occurs in several of its tokens. -/
theorem C9_insert_idempotent_set_semantics :
    (∀ (w p : List Char) (v v' : PyVal),
        insertE w p v = Except.ok v' → insertE w p v' = Except.ok v')
      ∧ (∃ shards, parse_and_insertF [strToChars "cat dog", strToChars "car bus"]
            = Except.ok shards
          ∧ searchF shards (strToChars "ca")
            = Except.ok [strToChars "cat dog", strToChars "car bus"])
      ∧ (∃ shards, parse_and_insertF [strToChars "aba ab"] = Except.ok shards
          ∧ searchF shards (strToChars "ab") = Except.ok [strToChars "aba ab"]
          ∧ shards.map (fun sh => match search_trieE (strToChars "ab") sh.2 with
              | Except.ok (PyRes.asSet s) => s.count (strToChars "aba ab")
              | _ => 0) = [1]) :=
  ⟨insertE_idem, ⟨_, rfl, rfl⟩, ⟨_, rfl, rfl, rfl⟩⟩

/-- Witness for C9's idempotence conjunct: re-inserting `"a"` for the line
`"x"` into the dict it just produced returns that dict unchanged. -/
theorem C9_insert_idempotent_set_semantics_witness :
    insertE ['a'] ['x'] (PyVal.dict [('a', PyVal.dict [('_', PyVal.pyset [['x']])])])
      = Except.ok (PyVal.dict [('a', PyVal.dict [('_', PyVal.pyset [['x']])])]) :=
  C9_insert_idempotent_set_semantics.1 ['a'] ['x'] (PyVal.dict [])
    (PyVal.dict [('a', PyVal.dict [('_', PyVal.pyset [['x']])])]) (by rfl)

/-- C10: a make_trie call that COMPLETES is monotone — every character
path present before the call is still present after it, path endpoints
keep their kind, and every line in any FINISH payload (a path ending in a
FINISH set, or the FINISH entry of a dict node) is still there afterwards;
insertion only adds nodes, markers and lines.  Calls that crash
(`AttributeError` on a misplaced `_`) have no after-state and are not
constrained. -/
theorem C10_make_trie_monotone_faithful (words : List (List Char)) :
    ∀ (parent : List Char) (v v' : PyVal) (path : List Char) (n : PyVal),
      make_trieE words parent v = Except.ok v' → descendD path v = some n →
      ∃ n', descendD path v' = some n' ∧ MonoConcl n n' := by
  induction words with
  | nil =>
    intro parent v v' path n hok hd
    injection hok with hok
    subst hok
    exact ⟨n, hd, MonoConcl_refl n⟩
  | cons w ws ih =>
    intro parent v v' path n hok hd
    cases h2 : insertE w parent v with
    | error u => rw [make_trieE_cons_error h2] at hok; exact absurd hok (by simp)
    | ok v1 =>
      rw [make_trieE_cons_ok h2] at hok
      obtain ⟨n1, hd1, hm1⟩ := insertE_descend_mono w parent v v1 h2 path n hd
      obtain ⟨n', hd', hm'⟩ := ih parent v1 v' path n1 hok hd1
      exact ⟨n', hd', MonoConcl_trans hm1 hm'⟩

/-- Witness for C10: the path `"a"` with FINISH payload `{"x"}` survives a
completed `make_trie` call inserting `"b"` for the line `"y"`. -/
theorem C10_make_trie_monotone_faithful_witness :
    ∃ n', descendD ['a'] (PyVal.dict
        [('a', PyVal.dict [('_', PyVal.pyset [['x']])]),
         ('b', PyVal.dict [('_', PyVal.pyset [['y']])])]) = some n'
      ∧ MonoConcl (PyVal.dict [('_', PyVal.pyset [['x']])]) n' :=
  C10_make_trie_monotone_faithful [['b']] ['y']
    (PyVal.dict [('a', PyVal.dict [('_', PyVal.pyset [['x']])])])
    (PyVal.dict [('a', PyVal.dict [('_', PyVal.pyset [['x']])]),
        ('b', PyVal.dict [('_', PyVal.pyset [['y']])])])
    ['a'] (PyVal.dict [('_', PyVal.pyset [['x']])]) (by rfl) (by rfl)

/-- C2: the sharded search agrees with a single whole-file trie on the
inputs where both are defined: for any corpus and query free of the
FINISH_MARKER character `_`, the faithful build and the faithful
single-trie build both complete, the sharded search and the single-trie
search both complete, a line is in the sharded result iff it is in the
single trie's FINISH payload for the query, and the sharded result is
duplicate-free.  (On other inputs the program can instead crash:
`C2_search_crash_cex`.) -/
theorem C2_sharded_equals_single_no_underscore
    (corpus : List (List Char)) (q : List Char)
    (hc : ∀ l ∈ corpus, '_' ∉ l) (hq : '_' ∉ q) :
    ∃ shards single res r,
      parse_and_insertF corpus = .ok shards
      ∧ build_singleF corpus = .ok single
      ∧ searchF shards q = .ok res
      ∧ search_trieE q single = .ok r
      ∧ (∀ x, x ∈ res ↔ x ∈ resContrib r)
      ∧ res.Nodup := by
  obtain ⟨shards, hps, hsimsh⟩ := parse_and_insertF_sim hc
  obtain ⟨single, hbs, hsims⟩ := build_singleF_sim hc
  obtain ⟨r, hse, hrc⟩ := search_trieE_sim q (build_single corpus) single hq hsims
  refine ⟨shards, single, search (parse_and_insert corpus) q, r, hps, hbs,
    searchF_sim hq hsimsh, hse, ?_, List.nodup_dedup _⟩
  intro x
  rw [hrc, mem_search_parse_and_insert, mem_search_build_single]

/-- Witness for C2: the spec's own scenario, corpus
`["cat dog", "car bus"]` with query `"ca"`. -/
theorem C2_sharded_equals_single_no_underscore_witness :
    ∃ shards single res r,
      parse_and_insertF [strToChars "cat dog", strToChars "car bus"] = .ok shards
      ∧ build_singleF [strToChars "cat dog", strToChars "car bus"] = .ok single
      ∧ searchF shards (strToChars "ca") = .ok res
      ∧ search_trieE (strToChars "ca") single = .ok r
      ∧ (∀ x, x ∈ res ↔ x ∈ resContrib r)
      ∧ res.Nodup :=
  C2_sharded_equals_single_no_underscore
    [strToChars "cat dog", strToChars "car bus"] (strToChars "ca")
    (by decide) (by decide)

/-- C3: on every corpus free of the FINISH_MARKER character `_` the build
completes and a search for the empty query completes with the empty
result set: no shard root carries a FINISH entry, because every inserted
word is a nonempty substring.  (A corpus containing `_` itself defeats
this: `C3_empty_query_underscore_cex`.) -/
theorem C3_empty_query_no_underscore (corpus : List (List Char))
    (hc : ∀ l ∈ corpus, '_' ∉ l) :
    ∃ shards, parse_and_insertF corpus = .ok shards
      ∧ searchF shards [] = .ok [] := by
  obtain ⟨shards, hps, hsimsh⟩ := parse_and_insertF_sim hc
  refine ⟨shards, hps, ?_⟩
  rw [searchF_sim (List.not_mem_nil '_') hsimsh,
    (search_empty_query_clean corpus).2]

/-- Witness for C3: the corpus `["a"]`. -/
theorem C3_empty_query_no_underscore_witness :
    ∃ shards, parse_and_insertF [strToChars "a"] = .ok shards
      ∧ searchF shards [] = .ok [] :=
  C3_empty_query_no_underscore [strToChars "a"] (by decide)

end SearchEngine
